import Mathlib

/-!
# Account history plugin

A shallow embedding of `libraries/plugins/account_history/account_history_plugin.cpp`:
the range check on tracked accounts, the operation-type filter, the creation of the
shared operation record and the pruned insertion into an account's history.

Conventions.
* Account names are elements of an arbitrary linearly ordered type `Name`
  (`account_name_type` is a fixed-width string compared lexicographically).
* `time_point_sec` is a number of seconds; the difference of two of them is a signed
  number of microseconds, as in `fc`.
* An iterator of a `flat_map` is a position `0 .. size`; `size` is `end()`.
  Dereferencing `end()` is a failure (`none`).
* A failed `assert` is a failure (`none`).
-/

namespace steem.plugins.account_history

/-! ## Time (`fc::time_point_sec`, `fc::microseconds`) -/

/-- `fc::time_point_sec`: a count of seconds since the epoch (32 bits, unsigned, in the
library; no arithmetic below can leave that range). -/
abbrev time_point_sec := Nat

/-- `fc::microseconds`: a signed count of microseconds (64 bits in the library; the
difference of two `time_point_sec` and `fc::days(30)` fit with room to spare). -/
abbrev microseconds := Int

namespace fc

/-- `fc::seconds`. -/
def seconds (s : Int) : microseconds := s * 1000000

/-- `fc::minutes`. -/
def minutes (m : Int) : microseconds := seconds (60 * m)

/-- `fc::hours`. -/
def hours (h : Int) : microseconds := minutes (60 * h)

/-- `fc::days`. -/
def days (d : Int) : microseconds := hours (24 * d)

/-- The difference `a - b` of two `time_point_sec`, in microseconds: both are converted
to a `time_point` first, so the result is negative when `b` is later than `a`. -/
def time_diff (a b : time_point_sec) : microseconds := seconds (a : Int) - seconds (b : Int)

end fc

/-! ## Chain objects -/

abbrev operation_id_type := Nat

abbrev account_id_type := Nat

/-- `OPERATION_HISTORY_MAX_LENGTH` of the anonymous enum. -/
def OPERATION_HISTORY_MAX_LENGTH : Nat := 30

/-- An `operation` as far as the plugin observes it: the name `fc::get_typename` gives
for its alternative, the bytes `fc::raw::pack` produces for it, and the set
`operation_get_impacted_accounts` computes from it (a `flat_set`, listed in its
iteration order). -/
structure operation (Name : Type) where
  type_name : String
  packed : List Nat
  impacted : List Name
deriving DecidableEq

structure operation_notification (Name : Type) where
  trx_id : Nat
  block : Nat
  trx_in_block : Nat
  op : operation Name
deriving DecidableEq

structure operation_object where
  id : operation_id_type
  trx_id : Nat
  block : Nat
  trx_in_block : Nat
  timestamp : time_point_sec
  serialized_op : List Nat
deriving DecidableEq

structure account_object (Name : Type) where
  id : account_id_type
  name : Name
deriving DecidableEq

/-- Modelled from the spec: `account_history_object` is declared in
`steem/chain/history_object.hpp`, outside the source file of the plugin. Following the
data model of the spec, a history is the account it belongs to and the ordered sequence of
references to operation records, oldest first and newest last. The sequence number of an
entry is its position; the spec fixes nothing more about it. -/
structure account_history_object where
  account : account_id_type
  op_list : List operation_id_type
deriving DecidableEq

namespace account_history_object

/-- Modelled from the spec: `store_operation` is declared in the missing
`history_object.hpp`. The spec says the entry is appended (newest last). -/
def store_operation (o : account_history_object) (op : operation_object) :
    account_history_object :=
  { o with op_list := o.op_list ++ [op.id] }

/-- Modelled from the spec: `truncate_operation_list` is declared in the missing
`history_object.hpp`. The spec says: truncate the entries sequence to at most `n`
most-recent entries (drop the oldest overflow). -/
def truncate_operation_list (o : account_history_object) (n : Nat) :
    account_history_object :=
  { o with op_list := o.op_list.drop (o.op_list.length - n) }

/-- Scan of a sequence with a predicate that may fail: the elements on which the
predicate answers `true` are removed, the others keep their order. -/
def remove_if {α : Type} (f : α → Option Bool) : List α → Option (List α)
  | [] => some []
  | x :: xs =>
    match f x with
    | none => none
    | some b =>
      match remove_if f xs with
      | none => none
      | some rest => some (if b then rest else x :: rest)

/-- Modelled from the spec: `remove_outdated_operations` is declared in the missing
`history_object.hpp`. The spec says: scan the remaining entries and remove any whose age
exceeds the limit, that is, any entry on which the filter answers `true`. -/
def remove_outdated_operations (o : account_history_object)
    (filter : operation_id_type → Option Bool) : Option account_history_object :=
  match remove_if filter o.op_list with
  | none => none
  | some l => some { o with op_list := l }

end account_history_object

/-! ## The database (`chain::database`, a chainbase store) -/

/-- The part of the database the plugin reads and writes: the head block time, the
accounts, the operation objects with the next id of their index, and the account
histories. -/
structure database (Name : Type) where
  head_block_time : time_point_sec
  account_index : List (account_object Name)
  operation_index : List operation_object
  operation_next_id : operation_id_type
  account_history_index : List account_history_object
deriving DecidableEq

namespace database

variable {Name : Type}

/-- `_db.find_account( name )`. -/
def find_account [DecidableEq Name] (db : database Name) (name : Name) :
    Option (account_object Name) :=
  db.account_index.find? (fun a => decide (a.name = name))

/-- `op_idx.find( opId )` on the `by_id` index. -/
def find_operation (db : database Name) (opId : operation_id_type) :
    Option operation_object :=
  db.operation_index.find? (fun o => decide (o.id = opId))

/-- `hist_idx.find( account )` on the `by_account` index. -/
def find_history (db : database Name) (account : account_id_type) :
    Option account_history_object :=
  db.account_history_index.find? (fun h => decide (h.account = account))

/-- `_db.create<operation_object>( ctor )`: the object gets the next id of the index,
is initialised by `ctor` and inserted. Returns the database and the new object. -/
def create_operation (db : database Name) (ctor : operation_object → operation_object) :
    database Name × operation_object :=
  let obj := ctor { id := db.operation_next_id, trx_id := 0, block := 0, trx_in_block := 0,
                    timestamp := 0, serialized_op := [] }
  ({ db with operation_index := db.operation_index ++ [obj],
             operation_next_id := db.operation_next_id + 1 }, obj)

/-- `_db.create<account_history_object>( ctor )`. -/
def create_history (db : database Name)
    (ctor : account_history_object → Option account_history_object) :
    Option (database Name) :=
  match ctor { account := 0, op_list := [] } with
  | none => none
  | some o => some { db with account_history_index := db.account_history_index ++ [o] }

/-- Replace the first element satisfying `p` by its image under `f`. -/
def modify_first {α : Type} (p : α → Bool) (f : α → Option α) : List α → Option (List α)
  | [] => some []
  | x :: xs =>
    if p x then
      match f x with
      | none => none
      | some y => some (y :: xs)
    else
      match modify_first p f xs with
      | none => none
      | some ys => some (x :: ys)

/-- `_db.modify( histInfo, f )` where `histInfo` is the object `find_history` returned
for `account`. -/
def modify_history (db : database Name) (account : account_id_type)
    (f : account_history_object → Option account_history_object) :
    Option (database Name) :=
  match modify_first (fun h => decide (h.account = account)) f db.account_history_index with
  | none => none
  | some l => some { db with account_history_index := l }

end database

/-! ## The visitors -/

/-- The lambda `outdated_op_filter` of `operation_visitor::operator()`: the record is
looked up by id (the `assert` fails when it is absent) and is outdated when
`now - timestamp > fc::days(30)`. -/
def outdated_op_filter {Name : Type} (now : time_point_sec) (db : database Name)
    (opId : operation_id_type) : Option Bool :=
  match db.find_operation opId with
  | none => none
  | some op => some (decide (fc.time_diff now op.timestamp > fc.days 30))

/-- Lines 76-90 of `operation_visitor::operator()`: when the slot `new_obj` is empty the
operation object is created and the slot filled. The result is the database and the
object the slot points at. -/
def operation_visitor_record {Name : Type} (_db : database Name)
    (_note : operation_notification Name) (new_obj : Option operation_object) :
    database Name × operation_object :=
  match new_obj with
  | none =>
    _db.create_operation (fun obj =>
      { obj with trx_id := _note.trx_id,
                 block := _note.block,
                 trx_in_block := _note.trx_in_block,
                 timestamp := _db.head_block_time,
                 serialized_op := _note.op.packed })
  | some n => (_db, n)

/-- The lambda passed to `_db.create<account_history_object>` (lines 110-115); `now` is
the head block time read at line 97. -/
def operation_visitor_create_lambda {Name : Type} (_db : database Name)
    (now : time_point_sec) (n : operation_object) (_account : account_object Name)
    (_prune : Bool) (o : account_history_object) : Option account_history_object :=
  let o := { o with account := _account.id }
  if _prune = false then some (o.store_operation n)
  else
    match outdated_op_filter now _db n.id with
    | none => none
    | some b => if b = false then some (o.store_operation n) else some o

/-- The lambda passed to `_db.modify` (lines 121-136). -/
def operation_visitor_modify_lambda {Name : Type} (_db : database Name)
    (now : time_point_sec) (n : operation_object) (_prune : Bool)
    (o : account_history_object) : Option account_history_object :=
  if _prune then
    let o := o.truncate_operation_list (OPERATION_HISTORY_MAX_LENGTH - 1)
    match o.remove_outdated_operations (outdated_op_filter now _db) with
    | none => none
    | some o =>
      match outdated_op_filter now _db n.id with
      | none => none
      | some b => if b = false then some (o.store_operation n) else some o
  else
    some (o.store_operation n)

/-- Lines 92-138 of `operation_visitor::operator()`: the object `n` the slot points at is
stored in the history of `_account`, which is created when it does not exist. -/
def operation_visitor_store {Name : Type} (_db : database Name) (n : operation_object)
    (_account : account_object Name) (_prune : Bool) : Option (database Name) :=
  let hist_itr := _db.find_history _account.id
  let now := _db.head_block_time
  match hist_itr with
  | none => _db.create_history (operation_visitor_create_lambda _db now n _account _prune)
  | some _ =>
    _db.modify_history _account.id (operation_visitor_modify_lambda _db now n _prune)

/-- `operation_visitor::operator()`. `new_obj` is the slot shared by the visits of one
notification; the result is the database and the slot after the visit. -/
def operation_visitor {Name : Type} (_db : database Name) (_note : operation_notification Name)
    (new_obj : Option operation_object) (_account : account_object Name) (_prune : Bool) :
    Option (database Name × Option operation_object) :=
  let created := operation_visitor_record _db _note new_obj
  match operation_visitor_store created.1 created.2 _account _prune with
  | none => none
  | some db2 => some (db2, some created.2)

/-- `operation_visitor_filter::operator()`: whether the visit is passed on to
`operation_visitor::operator()`. -/
def operation_visitor_filter (_filter : List String) (_blacklist : Bool) (name : String) :
    Bool :=
  if _filter.contains name then
    if !_blacklist then true else false
  else
    if _blacklist then true else false

/-! ## The plugin -/

structure account_history_plugin_impl (Name : Type) where
  _tracked_accounts : List (Name × Name)
  _filter_content : Bool
  _blacklist : Bool
  _op_list : List String
  _prune : Bool
deriving DecidableEq

section range

variable {Name : Type} [LinearOrder Name]

/-- `flat_map::lower_bound( item )`: the first position whose key is not less than
`item`, or `end()`. -/
def lower_bound : List (Name × Name) → Name → Nat
  | [], _ => 0
  | p :: rest, item => if p.1 < item then lower_bound rest item + 1 else 0

/-- The range check at the head of the loop body of `on_operation`: the conditional
decrement of the iterator and the condition of the `if`. A position is dereferenced
with `get?`, so that dereferencing `end()` makes the check fail. -/
def range_check (_tracked_accounts : List (Name × Name)) (item : Name) : Option Bool :=
  let begin_ := 0
  let end_ := _tracked_accounts.length
  let itr := lower_bound _tracked_accounts item
  let dec : Option Bool :=
    if itr ≠ begin_ then
      let lhs : Option Bool :=
        if itr ≠ end_ then
          match _tracked_accounts.get? itr with
          | none => none
          | some p => some (decide (p.1 ≠ item))
        else some false
      match lhs with
      | none => none
      | some true => some true
      | some false => some (decide (itr = end_))
    else some false
  match dec with
  | none => none
  | some d =>
    let itr := if d then itr - 1 else itr
    if _tracked_accounts.length = 0 then some true
    else if itr ≠ end_ then
      match _tracked_accounts.get? itr with
      | none => none
      | some p => some (decide (p.1 ≤ item) && decide (item ≤ p.2))
    else some false

/-- The dispatch of lines 208-211 of `on_operation`: whether `operation_visitor::operator()`
runs for an operation of the given type name. -/
def visits (my : account_history_plugin_impl Name) (name : String) : Bool :=
  if my._filter_content then operation_visitor_filter my._op_list my._blacklist name
  else true

/-- The loop of `on_operation` over the impacted names, threading the database and the
slot `new_obj`. -/
def on_operation_loop (my : account_history_plugin_impl Name)
    (note : operation_notification Name) :
    List Name → database Name × Option operation_object →
      Option (database Name × Option operation_object)
  | [], st => some st
  | item :: rest, st =>
    match range_check my._tracked_accounts item with
    | none => none
    | some false => on_operation_loop my note rest st
    | some true =>
      match st.1.find_account item with
      | none => on_operation_loop my note rest st
      | some account =>
        if visits my note.op.type_name then
          match operation_visitor st.1 note st.2 account my._prune with
          | none => none
          | some st1 => on_operation_loop my note rest st1
        else on_operation_loop my note rest st

/-- `account_history_plugin_impl::on_operation`. -/
def on_operation (my : account_history_plugin_impl Name) (_db : database Name)
    (note : operation_notification Name) : Option (database Name) :=
  match on_operation_loop my note note.op.impacted (_db, none) with
  | none => none
  | some st => some st.1

end range

/-! ## Vocabulary of the properties -/

/-- A range `[from, to]` of the map contains the name. -/
def in_range {Name : Type} [LinearOrder Name] (p : Name × Name) (item : Name) : Prop :=
  p.1 ≤ item ∧ item ≤ p.2

instance {Name : Type} [LinearOrder Name] (p : Name × Name) (item : Name) :
    Decidable (in_range p item) := by
  unfold in_range; infer_instance

/-- Two ranges overlap when some name lies in both. -/
def overlap {Name : Type} [LinearOrder Name] (p q : Name × Name) : Prop :=
  ∃ x, in_range p x ∧ in_range q x

/-- Not older than 30 days: `now - timestamp <= 30 days`, counted in seconds. -/
def within_max_age (now ts : time_point_sec) : Bool :=
  decide ((now : Int) - (ts : Int) ≤ 30 * 24 * 60 * 60)

/-- The record an entry references exists and is not older than 30 days at the head
block time of the database. -/
def entry_within_max_age {Name : Type} (db : database Name) (e : operation_id_type) : Bool :=
  match db.find_operation e with
  | none => false
  | some o => within_max_age db.head_block_time o.timestamp

/-- The entries of the history of an account, oldest first; no entries when the account
has no history. -/
def entries_of {Name : Type} (db : database Name) (account : account_id_type) :
    List operation_id_type :=
  match db.find_history account with
  | none => []
  | some h => h.op_list

/-- The history the retention policy prescribes after the insertion of the record `r`
into the entries `E`: those of the last `min |E| 29` entries of `E` that are not older than
30 days, in order, followed by `r` when `r` is not older than 30 days. -/
def pruned_entries {Name : Type} (db : database Name) (E : List operation_id_type)
    (r : operation_object) : List operation_id_type :=
  (E.drop (E.length - min E.length 29)).filter (entry_within_max_age db) ++
    (if within_max_age db.head_block_time r.timestamp then [r.id] else [])

/-- The history of the account after `operation_visitor_store`. -/
def stored_entries {Name : Type} (db : database Name) (r : operation_object) (a : account_id_type)
    (prune : Bool) : List operation_id_type :=
  if prune then pruned_entries db (entries_of db a) r else entries_of db a ++ [r.id]

/-- The slot `new_obj` is either empty, and then the next id of the operation index is
not in use, or it points at an object of the operation index. -/
def slot_points_into {Name : Type} (db : database Name) (new_obj : Option operation_object) :
    Prop :=
  match new_obj with
  | none => ∀ o ∈ db.operation_index, o.id ≠ db.operation_next_id
  | some r => db.find_operation r.id = some r

instance {Name : Type} (db : database Name) (new_obj : Option operation_object) :
    Decidable (slot_points_into db new_obj) := by
  unfold slot_points_into
  cases new_obj <;> infer_instance

/-- The record one call of `on_operation` creates for a notification: it gets the next
id of the operation index, the transaction id, block and in-block index of the
notification, the head block time and the packed operation. -/
def shared_record {Name : Type} (db : database Name) (note : operation_notification Name) :
    operation_object :=
  { id := db.operation_next_id,
    trx_id := note.trx_id,
    block := note.block,
    trx_in_block := note.trx_in_block,
    timestamp := db.head_block_time,
    serialized_op := note.op.packed }

/-- An impacted name qualifies when it is accepted by the range check, has an account
object and the operation passes the filter. -/
def qualifies {Name : Type} [LinearOrder Name] (my : account_history_plugin_impl Name)
    (db : database Name) (note : operation_notification Name) (item : Name) : Prop :=
  range_check my._tracked_accounts item = some true ∧
  (db.find_account item).isSome = true ∧
  visits my note.op.type_name = true

instance {Name : Type} [LinearOrder Name] (my : account_history_plugin_impl Name)
    (db : database Name) (note : operation_notification Name) (item : Name) :
    Decidable (qualifies my db note item) := by
  unfold qualifies; infer_instance

/-- Every entry of every history references an object of the operation index. -/
def references_resolve {Name : Type} (db : database Name) : Prop :=
  ∀ h ∈ db.account_history_index, ∀ e ∈ h.op_list, (db.find_operation e).isSome = true

instance {Name : Type} (db : database Name) : Decidable (references_resolve db) := by
  unfold references_resolve; infer_instance

/-- The last entry of the history of the account references the operation object `r`. -/
def last_entry_is {Name : Type} (db : database Name) (account : account_id_type)
    (r : operation_id_type) : Prop :=
  ∃ h, db.find_history account = some h ∧ h.op_list.getLast? = some r

/-- What holds of the database and the slot throughout the loop of `on_operation`
started on `db`: the head block time and the accounts are those of `db`; the slot is
empty and the operation index untouched, or the slot holds the shared record and the
index has grown by exactly that record; with pruning enabled the references resolve. -/
structure loop_inv {Name : Type} (my : account_history_plugin_impl Name) (db : database Name)
    (note : operation_notification Name) (st : database Name × Option operation_object) :
    Prop where
  time : st.1.head_block_time = db.head_block_time
  accounts : st.1.account_index = db.account_index
  slot : (st.2 = none ∧ st.1.operation_index = db.operation_index ∧
            st.1.operation_next_id = db.operation_next_id) ∨
         (st.2 = some (shared_record db note) ∧
            st.1.operation_index = db.operation_index ++ [shared_record db note] ∧
            st.1.operation_next_id = db.operation_next_id + 1)
  refs : my._prune = true → references_resolve st.1

/-! ## Sample data -/

/-- A head block time of 3000000 seconds; a record stamped 100 is older than 30 days
(2592000 seconds), one stamped 408000 is aged exactly 30 days, one stamped 2999000 is
recent. -/
def sample_records : List operation_object :=
  [ { id := 0, trx_id := 0, block := 1, trx_in_block := 0, timestamp := 100,
      serialized_op := [] },
    { id := 1, trx_id := 0, block := 2, trx_in_block := 0, timestamp := 408000,
      serialized_op := [] },
    { id := 2, trx_id := 0, block := 3, trx_in_block := 0, timestamp := 2999000,
      serialized_op := [] },
    { id := 3, trx_id := 0, block := 4, trx_in_block := 0, timestamp := 50,
      serialized_op := [] } ]

/-- Two accounts, named 5 and 7; the first has a history of three entries. -/
def sample_db : database Nat :=
  { head_block_time := 3000000,
    account_index := [⟨0, 5⟩, ⟨1, 7⟩],
    operation_index := sample_records,
    operation_next_id := 4,
    account_history_index := [⟨0, [0, 1, 2]⟩] }

/-- The first account has five entries, all older than 30 days. -/
def sample_db_outdated : database Nat :=
  { sample_db with account_history_index := [⟨0, [0, 3, 0, 3, 0]⟩] }

/-- Thirty-one recent records; the first account has a full history of the first
thirty. -/
def sample_db_full : database Nat :=
  { head_block_time := 3000000,
    account_index := [⟨0, 5⟩, ⟨1, 7⟩],
    operation_index := (List.range 31).map (fun i =>
      { id := i, trx_id := 0, block := i, trx_in_block := 0, timestamp := 2999000 + i,
        serialized_op := [] }),
    operation_next_id := 31,
    account_history_index := [⟨0, List.range 30⟩] }

def sample_note : operation_notification Nat :=
  { trx_id := 9, block := 8, trx_in_block := 1,
    op := { type_name := "steem::protocol::vote_operation", packed := [1, 2],
            impacted := [5, 6, 7] } }

/-- A plugin that tracks the names 4 to 7, records every operation type and prunes. -/
def sample_plugin : account_history_plugin_impl Nat :=
  { _tracked_accounts := [(4, 7)],
    _filter_content := false,
    _blacklist := false,
    _op_list := [],
    _prune := true }

/-- The notification with one name removed from the impacted set of its operation. -/
def without_impacted {Name : Type} [DecidableEq Name] (note : operation_notification Name)
    (item : Name) : operation_notification Name :=
  { note with op := { note.op with
      impacted := note.op.impacted.filter (fun x => decide (x ≠ item)) } }

/-- A plugin that tracks every name and records every operation type except votes. -/
def sample_plugin_no_votes : account_history_plugin_impl Nat :=
  { _tracked_accounts := [],
    _filter_content := true,
    _blacklist := true,
    _op_list := ["steem::protocol::vote_operation"],
    _prune := true }

/-! ## Configuration (`plugin_initialize`) -/

/-- `STEEM_NAMESPACE_PREFIX`. -/
def STEEM_NAMESPACE_PREFIX : String := "steem::protocol::"

/-- The options `plugin_initialize` reads from the `variables_map`: for each option its
value when it is specified, that is, when `options.count( name )` is not zero. -/
structure variables_map where
  account_history_track_account_range : Option (List String)
  track_account_range : Option (List String)
  account_history_whitelist_ops : Option (List String)
  history_whitelist_ops : Option (List String)
  account_history_blacklist_ops : Option (List String)
  history_blacklist_ops : Option (List String)
  history_disable_pruning : Option Bool
deriving DecidableEq

/-- `boost::split( ops, arg, is_any_of )` without token compression: the pieces of `arg`
between the delimiters, empty pieces included. -/
def boost_split (is_any_of : Char → Bool) : List Char → List (List Char)
  | [] => [[]]
  | c :: cs =>
    if is_any_of c then [] :: boost_split is_any_of cs
    else
      match boost_split is_any_of cs with
      | [] => [[c]]
      | t :: ts => (c :: t) :: ts

/-- `flat_set::insert`: nothing changes when the element is present. A `flat_set` is
represented by a duplicate-free list, of which only the membership is observed. -/
def flat_set_insert (s : List String) (x : String) : List String :=
  if s.contains x then s else s ++ [x]

/-- The loop that `plugin_initialize` runs on the value of each of the four whitelist and
blacklist options (lines 261-271, 278-288, 300-310, 317-327): every argument is split at
blanks, tabs and commas and every non-empty piece is inserted into `_op_list` behind the
namespace of the protocol. -/
def insert_op_names (args : List String) (_op_list : List String) : List String :=
  args.foldl
    (fun acc arg =>
      (boost_split (fun c => c == ' ' || c == '\t' || c == ',') arg.data).foldl
        (fun acc op =>
          if op.length ≠ 0 then flat_set_insert acc (STEEM_NAMESPACE_PREFIX ++ String.mk op)
          else acc)
        acc)
    _op_list

/-- The same loop on an option that may be unspecified. -/
def insert_op_names_of (value : Option (List String)) (_op_list : List String) :
    List String :=
  match value with
  | none => _op_list
  | some args => insert_op_names args _op_list

/-- Lines 244-251 of `plugin_initialize`. The macro `STEEM_LOAD_VALUE_SET` comes from
`steem/utilities/plugin_utilities.hpp`, outside the source file of the plugin, and is
taken as the parameter `load_value_set`: from the value of the option, when specified,
and the container it gives the container with the parsed pairs inserted, or fails. -/
def load_tracked_accounts {Name : Type}
    (load_value_set : Option (List String) → List (Name × Name) → Option (List (Name × Name)))
    (options : variables_map) : Option (List (Name × Name)) :=
  match load_value_set options.account_history_track_account_range [] with
  | none => none
  | some tracked =>
    if options.track_account_range.isSome then
      load_value_set options.track_account_range tracked
    else some tracked

/-- `account_history_plugin::plugin_initialize`, as far as the configuration of the plugin
is concerned: the result is the `account_history_plugin_impl` it leaves in `my`, or `none`
when it throws. -/
def plugin_initialize {Name : Type}
    (load_value_set : Option (List String) → List (Name × Name) → Option (List (Name × Name)))
    (options : variables_map) : Option (account_history_plugin_impl Name) :=
  match load_tracked_accounts load_value_set options with
  | none => none
  | some tracked =>
    let my : account_history_plugin_impl Name :=
      { _tracked_accounts := tracked, _filter_content := false, _blacklist := false,
        _op_list := [], _prune := true }
    let my : account_history_plugin_impl Name :=
      if options.account_history_whitelist_ops.isSome || options.history_whitelist_ops.isSome
      then
        { my with
          _filter_content := true,
          _blacklist := false,
          _op_list := insert_op_names_of options.history_whitelist_ops
            (insert_op_names_of options.account_history_whitelist_ops my._op_list) }
      else if options.account_history_blacklist_ops.isSome ||
          options.history_blacklist_ops.isSome
      then
        { my with
          _filter_content := true,
          _blacklist := true,
          _op_list := insert_op_names_of options.history_blacklist_ops
            (insert_op_names_of options.account_history_blacklist_ops my._op_list) }
      else my
    match options.history_disable_pruning with
    | some disable => some { my with _prune := !disable }
    | none => some my

/-- A loader for option sets without range options: it leaves the container as it is when
the option is not specified. -/
def sample_load_value_set (value : Option (List String)) (container : List (Nat × Nat)) :
    Option (List (Nat × Nat)) :=
  match value with
  | none => some container
  | some _ => none

/-- Both a whitelist and a blacklist are specified. -/
def sample_options_conflict : variables_map :=
  { account_history_track_account_range := none,
    track_account_range := none,
    account_history_whitelist_ops := some ["vote_operation, comment_operation"],
    history_whitelist_ops := none,
    account_history_blacklist_ops := some ["transfer_operation"],
    history_blacklist_ops := none,
    history_disable_pruning := some false }

/-- The map with the inverted ranges (`from > to`) removed. -/
def without_inverted {Name : Type} [LinearOrder Name] (m : List (Name × Name)) :
    List (Name × Name) :=
  m.filter (fun p => decide (p.1 ≤ p.2))

/-- An inverted range hides the name: it starts at or below the name and above the start
of a range containing the name. -/
def hidden_by_inverted {Name : Type} [LinearOrder Name] (m : List (Name × Name))
    (item : Name) : Prop :=
  ∃ q ∈ m, q.2 < q.1 ∧ q.1 ≤ item ∧ ∃ p ∈ m, in_range p item ∧ p.1 < q.1

/-- The entries `operation_visitor_store` leaves in a history that held the entries `E`:
the pruned entries with pruning, `E` followed by the record without. -/
def stored_list {Name : Type} (db : database Name) (E : List operation_id_type)
    (r : operation_object) (prune : Bool) : List operation_id_type :=
  if prune then pruned_entries db E r else E ++ [r.id]

/-- The database once the shared record of the notification is in the operation index. -/
def with_record {Name : Type} (db : database Name) (note : operation_notification Name) :
    database Name :=
  { db with operation_index := db.operation_index ++ [shared_record db note],
            operation_next_id := db.operation_next_id + 1 }

/-- The notification with another impacted set. -/
def with_impacted {Name : Type} (note : operation_notification Name) (impacted : List Name) :
    operation_notification Name :=
  { note with op := { note.op with impacted := impacted } }

/-- Some qualifying name of the list belongs to the account: the loop of `on_operation`
over the list visits the account. -/
def visited {Name : Type} [LinearOrder Name] (my : account_history_plugin_impl Name)
    (db : database Name) (note : operation_notification Name) (items : List Name)
    (b : account_id_type) : Prop :=
  ∃ item ∈ items, qualifies my db note item ∧
    ∃ acct, db.find_account item = some acct ∧ acct.id = b

/-- The ids of the account objects are unique, as in every chainbase index. -/
def unique_account_ids {Name : Type} (db : database Name) : Prop :=
  ∀ a1 ∈ db.account_index, ∀ a2 ∈ db.account_index, a1.id = a2.id → a1 = a2

instance {Name : Type} [DecidableEq Name] (db : database Name) :
    Decidable (unique_account_ids db) := by
  unfold unique_account_ids; infer_instance

/-- The record the entry references exists and is not stamped later than the head block
time. -/
def not_after_head {Name : Type} (db : database Name) (e : operation_id_type) : Prop :=
  match db.find_operation e with
  | none => False
  | some o => o.timestamp ≤ db.head_block_time

instance {Name : Type} (db : database Name) (e : operation_id_type) :
    Decidable (not_after_head db e) := by
  unfold not_after_head
  cases db.find_operation e <;> infer_instance

/-- Both entries reference existing records and the first is not stamped later than the
second. -/
def not_newer {Name : Type} (db : database Name) (e1 e2 : operation_id_type) : Prop :=
  match db.find_operation e1, db.find_operation e2 with
  | some o1, some o2 => o1.timestamp ≤ o2.timestamp
  | _, _ => False

instance {Name : Type} (db : database Name) (e1 e2 : operation_id_type) :
    Decidable (not_newer db e1 e2) := by
  unfold not_newer
  cases db.find_operation e1 <;> cases db.find_operation e2 <;> infer_instance

/-- The entries are ordered oldest to newest by the timestamps of the records they
reference. -/
def age_sorted {Name : Type} (db : database Name) (l : List operation_id_type) : Prop :=
  l.Pairwise (not_newer db)

instance {Name : Type} (db : database Name) (l : List operation_id_type) :
    Decidable (age_sorted db l) := by
  unfold age_sorted; infer_instance

/-- Every history is ordered oldest to newest and references no record stamped later than
the head block time. -/
def histories_age_sorted {Name : Type} (db : database Name) : Prop :=
  ∀ h ∈ db.account_history_index,
    age_sorted db h.op_list ∧ ∀ e ∈ h.op_list, not_after_head db e

instance {Name : Type} (db : database Name) : Decidable (histories_age_sorted db) := by
  unfold histories_age_sorted; infer_instance

/-- The history of every account in `d` is the one it has in `db`, or it ends with the
entry `r` and its other entries are entries of the history in `db`, in the same order. -/
def order_kept {Name : Type} (db d : database Name) (r : operation_id_type) : Prop :=
  ∀ b, d.find_history b = db.find_history b ∨
    ∃ h2, d.find_history b = some h2 ∧
      (h2.op_list.filter (fun e => decide (e ≠ r))).Sublist (entries_of db b) ∧
      h2.op_list.getLast? = some r

/-- The first account has the entries 3, 0, 1, 2, stamped 50, 100, 408000 and 2999000:
oldest first. -/
def sample_db_sorted : database Nat :=
  { sample_db with account_history_index := [⟨0, [3, 0, 1, 2]⟩] }

/-! ## The range check -/

section range_theorems

variable {Name : Type} [LinearOrder Name]

theorem lower_bound_le_length (m : List (Name × Name)) (item : Name) :
    lower_bound m item ≤ m.length := by
  induction m with
  | nil => simp [lower_bound]
  | cons p rest ih =>
    simp only [lower_bound, List.length_cons]
    split <;> omega

theorem lower_bound_before (m : List (Name × Name)) (item : Name) :
    ∀ (j : Nat) (p : Name × Name), j < lower_bound m item → m[j]? = some p → p.1 < item := by
  induction m with
  | nil => intro j p hj; simp [lower_bound] at hj
  | cons q rest ih =>
    intro j p hj hp
    simp only [lower_bound] at hj
    split at hj
    · rename_i hq
      cases j with
      | zero => simp at hp; subst hp; exact hq
      | succ k =>
        simp at hp
        exact ih k p (by omega) hp
    · omega

theorem lower_bound_at (m : List (Name × Name)) (item : Name) (p : Name × Name)
    (hp : m[lower_bound m item]? = some p) : item ≤ p.1 := by
  induction m with
  | nil => simp at hp
  | cons q rest ih =>
    simp only [lower_bound] at hp
    split at hp
    · simp at hp; exact ih hp
    · rename_i hq
      simp at hp; subst hp; exact not_lt.mp hq

theorem sorted_keys_getElem (m : List (Name × Name))
    (hsorted : m.Pairwise (fun p q => p.1 < q.1)) (i j : Nat) (p q : Name × Name)
    (hij : i < j) (hp : m[i]? = some p) (hq : m[j]? = some q) : p.1 < q.1 := by
  rw [List.pairwise_iff_getElem] at hsorted
  obtain ⟨hi, rfl⟩ := List.getElem?_eq_some_iff.mp hp
  obtain ⟨hj, rfl⟩ := List.getElem?_eq_some_iff.mp hq
  exact hsorted i j hi hj hij


theorem range_check_hit (m : List (Name × Name)) (item : Name) (p : Name × Name)
    (hp : m[lower_bound m item]? = some p) (hkey : p.1 = item) :
    range_check m item = some (decide (item ≤ p.2)) := by
  have hlt : lower_bound m item < m.length := (List.getElem?_eq_some_iff.mp hp).1
  have hne : m.length ≠ 0 := by omega
  have hne2 : lower_bound m item ≠ m.length := by omega
  by_cases h0 : lower_bound m item = 0
  · rw [h0] at hp
    simp [range_check, h0, hne, hp, hkey]
    intro h; omega
  · simp [range_check, h0, hne, hne2, hp, hkey]

theorem range_check_first (m : List (Name × Name)) (item : Name) (p : Name × Name)
    (h0 : lower_bound m item = 0) (hp : m[0]? = some p) (hkey : p.1 ≠ item) :
    range_check m item = some false := by
  have hlt : 0 < m.length := (List.getElem?_eq_some_iff.mp hp).1
  have hne : m.length ≠ 0 := by omega
  have hge : item ≤ p.1 := lower_bound_at m item p (by rw [h0]; exact hp)
  have : ¬ p.1 ≤ item := fun h => hkey (le_antisymm h hge)
  simp [range_check, h0, hne, hp, this]

theorem range_check_prev (m : List (Name × Name)) (item : Name) (k : Nat) (q : Name × Name)
    (hk : lower_bound m item = k + 1) (hq : m[k]? = some q)
    (hmiss : ∀ p, m[k + 1]? = some p → p.1 ≠ item) :
    range_check m item = some (decide (item ≤ q.2)) := by
  have hlt : k < m.length := (List.getElem?_eq_some_iff.mp hq).1
  have hne : m.length ≠ 0 := by omega
  have hql : q.1 < item := lower_bound_before m item k q (by omega) hq
  by_cases hend : k + 1 = m.length
  · have hk1 : m.length - 1 = k := by omega
    have hk2 : k ≠ m.length := by omega
    simp [range_check, hk, hne, hend]
    simp [hk1, hk2, hq, le_of_lt hql]
  · have hlt2 : k + 1 < m.length := by
      have := lower_bound_le_length m item
      omega
    obtain ⟨p, hp⟩ : ∃ p, m[k + 1]? = some p := ⟨m[k + 1], List.getElem?_eq_getElem hlt2⟩
    have hpk := hmiss p hp
    have hk2 : k ≠ m.length := by omega
    simp [range_check, hk, hne, hend, hp, hpk]
    simp [hk2, hq, le_of_lt hql]

theorem no_hit_after (m : List (Name × Name)) (item : Name)
    (hsorted : m.Pairwise (fun p q => p.1 < q.1))
    (hmiss : ∀ p, m[lower_bound m item]? = some p → p.1 ≠ item)
    (j : Nat) (p : Name × Name) (hj : lower_bound m item ≤ j) (hp : m[j]? = some p) :
    ¬ p.1 ≤ item := by
  rcases Nat.eq_or_lt_of_le hj with h | h
  · rw [← h] at hp
    have h1 := lower_bound_at m item p hp
    have h2 := hmiss p hp
    exact fun hle => h2 (le_antisymm hle h1)
  · have hjl : j < m.length := (List.getElem?_eq_some_iff.mp hp).1
    have hil : lower_bound m item < m.length := by omega
    have hp0 : m[lower_bound m item]? = some m[lower_bound m item] :=
      List.getElem?_eq_getElem hil
    have h1 := lower_bound_at m item _ hp0
    have h2 := sorted_keys_getElem m hsorted _ _ _ _ h hp0 hp
    exact not_le.mpr (lt_of_le_of_lt h1 h2)

theorem ranges_apart (m : List (Name × Name))
    (hsorted : m.Pairwise (fun p q => p.1 < q.1))
    (hle : ∀ p ∈ m, p.1 ≤ p.2)
    (hdisj : m.Pairwise (fun p q => ¬ overlap p q))
    (j k : Nat) (p q : Name × Name) (hjk : j < k) (hp : m[j]? = some p)
    (hq : m[k]? = some q) : p.2 < q.1 := by
  by_contra hcon
  have hlt := sorted_keys_getElem m hsorted j k p q hjk hp hq
  have hqm : q ∈ m := List.getElem?_mem hq
  rw [List.pairwise_iff_getElem] at hdisj
  obtain ⟨hj, rfl⟩ := List.getElem?_eq_some_iff.mp hp
  obtain ⟨hk, rfl⟩ := List.getElem?_eq_some_iff.mp hq
  exact hdisj j k hj hk hjk ⟨m[k].1, ⟨le_of_lt hlt, not_lt.mp hcon⟩, ⟨le_refl _, hle _ hqm⟩⟩

theorem range_check_eq_decide (m : List (Name × Name)) (item : Name)
    (hne : m ≠ [])
    (hsorted : m.Pairwise (fun p q => p.1 < q.1))
    (hle : ∀ p ∈ m, p.1 ≤ p.2)
    (hdisj : m.Pairwise (fun p q => ¬ overlap p q)) :
    range_check m item = some (decide (∃ p ∈ m, in_range p item)) := by
  have hlen : 0 < m.length := List.length_pos.mpr hne
  have hprev : ∀ k q, lower_bound m item = k + 1 → m[k]? = some q →
      (∀ p, m[k + 1]? = some p → p.1 ≠ item) →
      range_check m item = some (decide (∃ p ∈ m, in_range p item)) := by
    intro k q hk hq hmiss
    rw [range_check_prev m item k q hk hq hmiss]
    have hql : q.1 < item := lower_bound_before m item k q (by omega) hq
    have hiff : (∃ p ∈ m, in_range p item) ↔ item ≤ q.2 := by
      constructor
      · rintro ⟨p, hpm, hp1, hp2⟩
        obtain ⟨j, hj⟩ := List.mem_iff_getElem?.mp hpm
        rcases Nat.lt_trichotomy j k with h | h | h
        · have := ranges_apart m hsorted hle hdisj j k p q h hj hq
          exact absurd hp2 (not_le.mpr (lt_trans this hql))
        · subst h
          rw [hq] at hj
          cases hj
          exact hp2
        · exact absurd hp1
            (no_hit_after m item hsorted (by rw [hk]; exact hmiss) j p (by omega) hj)
      · intro h
        exact ⟨q, List.getElem?_mem hq, le_of_lt hql, h⟩
    simp only [hiff]
  cases hcur : m[lower_bound m item]? with
  | none =>
    have hge : m.length ≤ lower_bound m item := List.getElem?_eq_none_iff.mp hcur
    have hle2 := lower_bound_le_length m item
    obtain ⟨k, hk⟩ : ∃ k, lower_bound m item = k + 1 := ⟨lower_bound m item - 1, by omega⟩
    have hkl : k < m.length := by omega
    refine hprev k m[k] hk (List.getElem?_eq_getElem hkl) ?_
    intro p hp
    rw [← hk, hcur] at hp
    cases hp
  | some p =>
    have hpm : p ∈ m := List.getElem?_mem hcur
    by_cases hkey : p.1 = item
    · rw [range_check_hit m item p hcur hkey]
      have h1 : item ≤ p.2 := hkey ▸ hle p hpm
      have h2 : ∃ p ∈ m, in_range p item := ⟨p, hpm, le_of_eq hkey, h1⟩
      simp [h1, h2]
    · cases hlb : lower_bound m item with
      | zero =>
        rw [hlb] at hcur
        rw [range_check_first m item p hlb hcur hkey]
        have h2 : ¬ ∃ p ∈ m, in_range p item := by
          rintro ⟨p2, hpm2, hp1, _⟩
          obtain ⟨j, hj⟩ := List.mem_iff_getElem?.mp hpm2
          refine no_hit_after m item hsorted ?_ j p2 (by omega) hj hp1
          intro p3 hp3
          rw [hlb, hcur] at hp3
          cases hp3
          exact hkey
        simp [h2]
      | succ k =>
        have hkl : k < m.length := by
          have := lower_bound_le_length m item
          omega
        refine hprev k m[k] hlb (List.getElem?_eq_getElem hkl) ?_
        intro p2 hp2
        rw [← hlb, hcur] at hp2
        cases hp2
        exact hkey

theorem range_check_ne_none (m : List (Name × Name)) (item : Name) :
    range_check m item ≠ none := by
  have hle := lower_bound_le_length m item
  have hsome : ∀ i, i < m.length → ∃ p, m[i]? = some p :=
    fun i hi => ⟨m[i], List.getElem?_eq_getElem hi⟩
  by_cases hlen : m.length = 0
  · have hm : m = [] := List.length_eq_zero.mp hlen
    subst hm
    simp [range_check, lower_bound]
  · rcases Nat.eq_or_lt_of_le hle with hend | hlt
    · obtain ⟨q, hq⟩ := hsome (m.length - 1) (by omega)
      have hk2 : m.length - 1 ≠ m.length := by omega
      simp [range_check, hend, hlen, hq, hk2]
    · obtain ⟨p, hp⟩ := hsome _ hlt
      have hne : lower_bound m item ≠ m.length := by omega
      by_cases h0 : lower_bound m item = 0
      · rw [h0] at hp
        have h0l : ¬ (0 = m.length) := fun h => hlen h.symm
        simp [range_check, h0, hlen, hp, h0l]
      · obtain ⟨q, hq⟩ := hsome (lower_bound m item - 1) (by omega)
        have hk2 : lower_bound m item - 1 ≠ m.length := by omega
        by_cases hkey : p.1 = item
        · simp [range_check, h0, hlen, hp, hne, hkey]
        · simp [range_check, h0, hlen, hp, hne, hkey, hq, hk2]

/-- C1. For a non-empty range map (keys strictly increasing, as in every `flat_map`) whose
ranges satisfy `from <= to` and are pairwise non-overlapping, the range check of
`on_operation` succeeds and accepts a name exactly when some configured range contains
it; in particular both endpoints of every range are accepted. -/
theorem range_check_exact (m : List (Name × Name))
    (hne : m ≠ [])
    (hsorted : m.Pairwise (fun p q => p.1 < q.1))
    (hle : ∀ p ∈ m, p.1 ≤ p.2)
    (hdisj : m.Pairwise (fun p q => ¬ overlap p q)) :
    (∀ item, range_check m item = some (decide (∃ p ∈ m, in_range p item))) ∧
    (∀ p ∈ m, range_check m p.1 = some true ∧ range_check m p.2 = some true) := by
  refine ⟨fun item => range_check_eq_decide m item hne hsorted hle hdisj, ?_⟩
  intro p hp
  have h1 : ∃ q ∈ m, in_range q p.1 := ⟨p, hp, le_refl _, hle p hp⟩
  have h2 : ∃ q ∈ m, in_range q p.2 := ⟨p, hp, hle p hp, le_refl _⟩
  rw [range_check_eq_decide m p.1 hne hsorted hle hdisj,
    range_check_eq_decide m p.2 hne hsorted hle hdisj]
  simp [h1, h2]

theorem range_check_exact_witness :
    (([(2, 4), (6, 8)] : List (Nat × Nat)) ≠ []) ∧
    (∀ item, range_check ([(2, 4), (6, 8)] : List (Nat × Nat)) item
      = some (decide (∃ p ∈ ([(2, 4), (6, 8)] : List (Nat × Nat)), in_range p item))) ∧
    (∀ p ∈ ([(2, 4), (6, 8)] : List (Nat × Nat)),
      range_check ([(2, 4), (6, 8)] : List (Nat × Nat)) p.1 = some true ∧
      range_check ([(2, 4), (6, 8)] : List (Nat × Nat)) p.2 = some true) :=
  ⟨by decide,
   range_check_exact ([(2, 4), (6, 8)] : List (Nat × Nat)) (by decide) (by decide) (by decide)
    (by
      simp only [List.pairwise_cons, List.mem_singleton, List.not_mem_nil, overlap, in_range]
      simp
      intro x _ h1 h2
      omega)⟩

/-- C2. With an empty range map the lower bound is `begin()`, so no decrement is
attempted, and the range check accepts every account name. -/
theorem range_check_empty (item : Name) :
    lower_bound ([] : List (Name × Name)) item = 0 ∧
    range_check ([] : List (Name × Name)) item = some true := by
  simp [lower_bound, range_check]

end range_theorems

/-! ## The operation filter -/

/-- C3. An operation is passed on to `operation_visitor` exactly when filtering is
disabled, or the list is a whitelist containing the type name, or the list is a
blacklist not containing it. With whitelist `{A}` only type `A` is passed on and with
blacklist `{A}` every type except `A`. -/
theorem visits_iff {Name : Type} (my : account_history_plugin_impl Name) (name : String) :
    (visits my name = true ↔
      (my._filter_content = false ∨
       (my._filter_content = true ∧ my._blacklist = false ∧ name ∈ my._op_list) ∨
       (my._filter_content = true ∧ my._blacklist = true ∧ name ∉ my._op_list))) ∧
    (∀ A : String,
      (visits { my with _filter_content := true, _blacklist := false, _op_list := [A] } name
        = true ↔ name = A) ∧
      (visits { my with _filter_content := true, _blacklist := true, _op_list := [A] } name
        = true ↔ name ≠ A)) := by
  constructor
  · unfold visits operation_visitor_filter
    cases my._filter_content <;> cases my._blacklist <;> simp
  · intro A
    simp [visits, operation_visitor_filter]

/-! ## Insertion into a history -/

section store_theorems

variable {Name : Type}

theorem outdated_iff (now ts : time_point_sec) :
    decide (fc.time_diff now ts > fc.days 30) = !within_max_age now ts := by
  have key : ((now : Int) * 1000000 - (ts : Int) * 1000000 > 60 * (60 * (24 * 30)) * 1000000) ↔
      ¬ ((now : Int) - (ts : Int) ≤ 30 * 24 * 60 * 60) := by
    constructor <;> intro h <;> omega
  unfold within_max_age fc.time_diff fc.days fc.hours fc.minutes fc.seconds
  rw [← decide_not]
  exact decide_eq_decide.mpr key

theorem outdated_op_filter_found (db : database Name) (e : operation_id_type)
    (o : operation_object) (h : db.find_operation e = some o) :
    outdated_op_filter db.head_block_time db e
      = some (!within_max_age db.head_block_time o.timestamp) := by
  simp [outdated_op_filter, h, outdated_iff]

theorem outdated_op_filter_entry (db : database Name) (e : operation_id_type)
    (h : (db.find_operation e).isSome = true) :
    outdated_op_filter db.head_block_time db e = some (!entry_within_max_age db e) := by
  obtain ⟨o, ho⟩ := Option.isSome_iff_exists.mp h
  rw [outdated_op_filter_found db e o ho]
  simp [entry_within_max_age, ho]

theorem remove_if_eq_filter {α : Type} (f : α → Option Bool) (g : α → Bool) (l : List α)
    (h : ∀ x ∈ l, f x = some (!g x)) :
    account_history_object.remove_if f l = some (l.filter g) := by
  induction l with
  | nil => rfl
  | cons x xs ih =>
    have hx := h x (List.mem_cons_self x xs)
    have hxs := ih (fun y hy => h y (List.mem_cons_of_mem x hy))
    simp only [account_history_object.remove_if, hx, hxs]
    cases hg : g x <;> simp [List.filter, hg]

theorem modify_first_found {α : Type} (p : α → Bool) (f : α → Option α) (l : List α)
    (x y : α) (hx : l.find? p = some x) (hf : f x = some y) (hp : p y = true) :
    ∃ l2, database.modify_first p f l = some l2 ∧ l2.find? p = some y ∧
      (∀ q : α → Bool, q x = false → q y = false → l2.find? q = l.find? q) ∧
      (∀ z ∈ l2, z = y ∨ z ∈ l) := by
  induction l with
  | nil => simp at hx
  | cons a rest ih =>
    by_cases hpa : p a = true
    · have hax : a = x := by simpa [List.find?_cons, hpa] using hx
      subst hax
      refine ⟨y :: rest, by simp [database.modify_first, hpa, hf], by simp [List.find?_cons, hp],
        ?_, ?_⟩
      · intro q hqx hqy
        simp [List.find?_cons, hqx, hqy]
      · intro z hz
        rcases List.mem_cons.mp hz with h | h
        · exact Or.inl h
        · exact Or.inr (List.mem_cons_of_mem _ h)
    · have hpa2 : p a = false := by simpa using hpa
      have hx2 : rest.find? p = some x := by simpa [List.find?_cons, hpa2] using hx
      obtain ⟨l2, h1, h2, h3, h4⟩ := ih hx2
      refine ⟨a :: l2, by simp [database.modify_first, hpa2, h1],
        by simp [List.find?_cons, hpa2, h2], ?_, ?_⟩
      · intro q hqx hqy
        simp [List.find?_cons, h3 q hqx hqy]
      · intro z hz
        rcases List.mem_cons.mp hz with h | h
        · exact Or.inr (h ▸ List.mem_cons_self _ _)
        · rcases h4 z h with h5 | h5
          · exact Or.inl h5
          · exact Or.inr (List.mem_cons_of_mem _ h5)

theorem find_history_account (db : database Name) (a : account_id_type)
    (h : account_history_object) (hh : db.find_history a = some h) : h.account = a := by
  have := List.find?_some hh
  simpa using this

theorem operation_visitor_store_spec (db : database Name) (r : operation_object)
    (a : account_object Name) (prune : Bool)
    (hr : prune = true → db.find_operation r.id = some r)
    (hE : prune = true → ∀ e ∈ entries_of db a.id, (db.find_operation e).isSome = true) :
    ∃ db2, operation_visitor_store db r a prune = some db2 ∧
      db2.find_history a.id = some ⟨a.id, stored_entries db r a.id prune⟩ ∧
      db2.head_block_time = db.head_block_time ∧
      db2.account_index = db.account_index ∧
      db2.operation_index = db.operation_index ∧
      db2.operation_next_id = db.operation_next_id ∧
      (∀ b, b ≠ a.id → db2.find_history b = db.find_history b) ∧
      (∀ h2 ∈ db2.account_history_index,
        h2 = ⟨a.id, stored_entries db r a.id prune⟩ ∨ h2 ∈ db.account_history_index) := by
  cases hfind : db.find_history a.id with
  | none =>
    have hent : entries_of db a.id = [] := by simp [entries_of, hfind]
    have hctor : ∃ db2, operation_visitor_store db r a prune = some db2 ∧
        db2 = { db with account_history_index :=
          db.account_history_index ++ [⟨a.id, stored_entries db r a.id prune⟩] } := by
      cases prune with
      | false =>
        simp [operation_visitor_store, operation_visitor_create_lambda, hfind,
          database.create_history, stored_entries, hent,
          account_history_object.store_operation]
      | true =>
        have hf := outdated_op_filter_found db r.id r (hr rfl)
        cases hw : within_max_age db.head_block_time r.timestamp <;>
        simp [operation_visitor_store, operation_visitor_create_lambda, hfind,
          database.create_history, stored_entries, hent,
          account_history_object.store_operation, hf, hw, pruned_entries]
    obtain ⟨db2, h1, h2⟩ := hctor
    subst h2
    refine ⟨_, h1, ?_, rfl, rfl, rfl, rfl, ?_, ?_⟩
    · unfold database.find_history at hfind ⊢
      simp [List.find?_append, hfind]
    · intro b hb
      unfold database.find_history
      have : ¬ a.id = b := fun h => hb h.symm
      simp [List.find?_append, this]
    · intro h2 hh2
      simp only [List.mem_append, List.mem_singleton] at hh2
      rcases hh2 with h | h
      · exact Or.inr h
      · exact Or.inl h
  | some h =>
    have hacc : h.account = a.id := find_history_account db a.id h hfind
    have hent : entries_of db a.id = h.op_list := by simp [entries_of, hfind]
    have hdrop : h.op_list.length - min h.op_list.length 29 = h.op_list.length - 29 := by
      omega
    have hbody : ∃ y, y = (⟨a.id, stored_entries db r a.id prune⟩ : account_history_object) ∧
        operation_visitor_modify_lambda db db.head_block_time r prune h = some y := by
      unfold operation_visitor_modify_lambda
      refine ⟨_, rfl, ?_⟩
      cases prune with
      | false =>
        simp [stored_entries, hent, account_history_object.store_operation, hacc]
      | true =>
        have hf := outdated_op_filter_found db r.id r (hr rfl)
        have hrem := remove_if_eq_filter (outdated_op_filter db.head_block_time db)
          (entry_within_max_age db) (h.op_list.drop (h.op_list.length - 29))
          (fun e he => outdated_op_filter_entry db e
            (hE rfl e (hent ▸ List.mem_of_mem_drop he)))
        cases hw : within_max_age db.head_block_time r.timestamp <;>
        simp [stored_entries, hent, account_history_object.store_operation, hacc,
          account_history_object.truncate_operation_list,
          account_history_object.remove_outdated_operations, OPERATION_HISTORY_MAX_LENGTH,
          hrem, hf, hw, pruned_entries, hdrop]
    obtain ⟨y, hy, hFy⟩ := hbody
    have hpy : (fun h : account_history_object => decide (h.account = a.id)) y = true := by
      simp [hy]
    obtain ⟨l2, h1, h2, h3, h4⟩ := modify_first_found
      (fun h : account_history_object => decide (h.account = a.id))
      (operation_visitor_modify_lambda db db.head_block_time r prune)
      db.account_history_index h y hfind hFy hpy
    refine ⟨{ db with account_history_index := l2 }, ?_, ?_, rfl, rfl, rfl, rfl, ?_, ?_⟩
    · simp only [operation_visitor_store, hfind, database.modify_history]
      rw [h1]
    · rw [← hy]
      exact h2
    · intro b hb
      unfold database.find_history
      apply h3
      · simp [hacc]; exact fun h => hb h.symm
      · simp [hy]; exact fun h => hb h.symm
    · intro h2 hh2
      rw [← hy]
      exact h4 h2 hh2

theorem operation_visitor_record_spec (db : database Name)
    (note : operation_notification Name) (new_obj : Option operation_object)
    (hslot : slot_points_into db new_obj) :
    (operation_visitor_record db note new_obj).1.find_operation
        (operation_visitor_record db note new_obj).2.id
      = some (operation_visitor_record db note new_obj).2 ∧
    (∀ e, (db.find_operation e).isSome = true →
      (operation_visitor_record db note new_obj).1.find_operation e = db.find_operation e) := by
  cases new_obj with
  | some r =>
    exact ⟨hslot, fun e _ => rfl⟩
  | none =>
    have hfresh : ∀ o ∈ db.operation_index, o.id ≠ db.operation_next_id := hslot
    constructor
    · have hnone : db.operation_index.find? (fun o => decide (o.id = db.operation_next_id))
          = none := by
        rw [List.find?_eq_none]
        intro o ho
        simpa using hfresh o ho
      simp [operation_visitor_record, database.create_operation, database.find_operation,
        List.find?_append, hnone]
    · intro e he
      obtain ⟨o, ho⟩ := Option.isSome_iff_exists.mp he
      unfold database.find_operation at ho
      simp [operation_visitor_record, database.create_operation, database.find_operation,
        List.find?_append, ho]

theorem operation_visitor_record_frame (db : database Name)
    (note : operation_notification Name) (new_obj : Option operation_object) :
    (operation_visitor_record db note new_obj).1.head_block_time = db.head_block_time ∧
    (operation_visitor_record db note new_obj).1.account_index = db.account_index ∧
    (operation_visitor_record db note new_obj).1.account_history_index
      = db.account_history_index := by
  cases new_obj <;> simp [operation_visitor_record, database.create_operation]

theorem stored_entries_congr (db db1 : database Name) (r : operation_object)
    (a : account_id_type) (prune : Bool)
    (htime : db1.head_block_time = db.head_block_time)
    (hhist : db1.account_history_index = db.account_history_index)
    (hops : ∀ e, (db.find_operation e).isSome = true →
      db1.find_operation e = db.find_operation e)
    (hE : prune = true → ∀ e ∈ entries_of db a, (db.find_operation e).isSome = true) :
    stored_entries db1 r a prune = stored_entries db r a prune := by
  have hent : entries_of db1 a = entries_of db a := by
    simp [entries_of, database.find_history, hhist]
  cases prune with
  | false => simp [stored_entries, hent]
  | true =>
    simp only [stored_entries, hent, pruned_entries, htime, if_true]
    congr 1
    apply List.filter_congr
    intro e he
    have hres := hE rfl e (List.mem_of_mem_drop he)
    simp [entry_within_max_age, hops e hres, htime]

theorem operation_visitor_spec (db : database Name) (note : operation_notification Name)
    (new_obj : Option operation_object) (a : account_object Name) (prune : Bool)
    (hslot : prune = true → slot_points_into db new_obj)
    (hE : prune = true → ∀ e ∈ entries_of db a.id, (db.find_operation e).isSome = true) :
    ∃ db2, operation_visitor db note new_obj a prune
        = some (db2, some (operation_visitor_record db note new_obj).2) ∧
      db2.find_history a.id
        = some ⟨a.id, stored_entries db (operation_visitor_record db note new_obj).2 a.id prune⟩ := by
  obtain ⟨ht, _, hh⟩ := operation_visitor_record_frame db note new_obj
  have hent : entries_of (operation_visitor_record db note new_obj).1 a.id = entries_of db a.id := by
    simp [entries_of, database.find_history, hh]
  have hops : prune = true → ∀ e, (db.find_operation e).isSome = true →
      (operation_visitor_record db note new_obj).1.find_operation e = db.find_operation e :=
    fun hp => (operation_visitor_record_spec db note new_obj (hslot hp)).2
  obtain ⟨db2, h1, h2, _⟩ := operation_visitor_store_spec
    (operation_visitor_record db note new_obj).1 (operation_visitor_record db note new_obj).2
    a prune (fun hp => (operation_visitor_record_spec db note new_obj (hslot hp)).1)
    (fun hp e he => by
      rw [hent] at he
      have := hE hp e he
      rw [hops hp e this]
      exact this)
  refine ⟨db2, by simp [operation_visitor, h1], ?_⟩
  rw [h2]
  cases prune with
  | false => simp [stored_entries, hent]
  | true =>
    rw [stored_entries_congr db _ _ a.id true ht hh (hops rfl) hE]

theorem pruned_entries_length (db : database Name) (E : List operation_id_type)
    (r : operation_object) : (pruned_entries db E r).length ≤ 30 := by
  unfold pruned_entries
  have h1 := List.length_filter_le (entry_within_max_age db)
    (E.drop (E.length - min E.length 29))
  have h2 : (E.drop (E.length - min E.length 29)).length ≤ 29 := by
    rw [List.length_drop]; omega
  rw [List.length_append]
  split <;> simp <;> omega

/-- C5. With pruning enabled, the insertion into an existing history with entries `E`
leaves exactly those of the last `min |E| 29` entries of `E` that are not older than 30
days, in order, followed by the new record when it is not older than 30 days and by
nothing otherwise. An entry aged exactly 30 days is kept. -/
theorem pruned_insertion_existing (db : database Name) (note : operation_notification Name)
    (new_obj : Option operation_object) (a : account_object Name)
    (h : account_history_object)
    (hslot : slot_points_into db new_obj)
    (hh : db.find_history a.id = some h)
    (hE : ∀ e ∈ h.op_list, (db.find_operation e).isSome = true) :
    ∃ db2, operation_visitor db note new_obj a true
        = some (db2, some (operation_visitor_record db note new_obj).2) ∧
      db2.find_history a.id
        = some ⟨a.id, pruned_entries db h.op_list (operation_visitor_record db note new_obj).2⟩ := by
  have hent : entries_of db a.id = h.op_list := by simp [entries_of, hh]
  obtain ⟨db2, h1, h2⟩ := operation_visitor_spec db note new_obj a true (fun _ => hslot)
    (fun _ e he => hE e (hent ▸ he))
  exact ⟨db2, h1, by rw [h2]; simp [stored_entries, hent]⟩

theorem pruned_insertion_existing_witness :
    ∃ db2, operation_visitor sample_db sample_note (some ⟨3, 0, 4, 0, 50, []⟩) ⟨0, 5⟩ true
        = some (db2, some ⟨3, 0, 4, 0, 50, []⟩) ∧
      db2.find_history 0 = some ⟨0, [1, 2]⟩ :=
  pruned_insertion_existing sample_db sample_note (some ⟨3, 0, 4, 0, 50, []⟩) ⟨0, 5⟩
    ⟨0, [0, 1, 2]⟩ (by decide) (by decide) (by decide)

/-- C6. When the account has no history, the insertion creates one: it holds exactly
the new record when pruning is disabled or the record is not older than 30 days, and is
created empty when pruning is enabled and the record is older than 30 days. -/
theorem first_insertion (db : database Name) (note : operation_notification Name)
    (new_obj : Option operation_object) (a : account_object Name) (prune : Bool)
    (hslot : prune = true → slot_points_into db new_obj)
    (hh : db.find_history a.id = none) :
    ∃ db2, operation_visitor db note new_obj a prune
        = some (db2, some (operation_visitor_record db note new_obj).2) ∧
      db2.find_history a.id
        = some ⟨a.id,
            if prune = false ∨
                within_max_age db.head_block_time
                  (operation_visitor_record db note new_obj).2.timestamp = true
            then [(operation_visitor_record db note new_obj).2.id] else []⟩ := by
  have hent : entries_of db a.id = [] := by simp [entries_of, hh]
  obtain ⟨db2, h1, h2⟩ := operation_visitor_spec db note new_obj a prune hslot
    (fun _ e he => by simp [hent] at he)
  refine ⟨db2, h1, ?_⟩
  rw [h2]
  cases prune <;> simp [stored_entries, hent, pruned_entries]

theorem first_insertion_witness :
    ∃ db2, operation_visitor sample_db sample_note (some ⟨3, 0, 4, 0, 50, []⟩) ⟨1, 7⟩ true
        = some (db2, some ⟨3, 0, 4, 0, 50, []⟩) ∧
      db2.find_history 1 = some ⟨1, []⟩ :=
  first_insertion sample_db sample_note (some ⟨3, 0, 4, 0, 50, []⟩) ⟨1, 7⟩ true
    (fun _ => by decide) (by decide)

/-- C7. With pruning disabled the insertion is an append: whatever the prior history
(absent, empty or of any length, with entries of any age) and whatever the age of the new
record, the insertion succeeds and the history afterwards is the prior entries,
unchanged and in order, followed by the new record. -/
theorem append_only_without_pruning (db : database Name)
    (note : operation_notification Name) (new_obj : Option operation_object)
    (a : account_object Name) :
    ∃ db2, operation_visitor db note new_obj a false
        = some (db2, some (operation_visitor_record db note new_obj).2) ∧
      db2.find_history a.id
        = some ⟨a.id, entries_of db a.id ++ [(operation_visitor_record db note new_obj).2.id]⟩ := by
  obtain ⟨db2, h1, h2⟩ := operation_visitor_spec db note new_obj a false
    (fun h => by cases h) (fun h => by cases h)
  exact ⟨db2, h1, by rw [h2]; simp [stored_entries]⟩

/-- C8. With pruning enabled, whatever the prior history (absent, or existing with any
number of entries) and the new record, the history holds at most
`OPERATION_HISTORY_MAX_LENGTH = 30` entries after the insertion. -/
theorem length_bound_after_insertion (db : database Name)
    (note : operation_notification Name) (new_obj : Option operation_object)
    (a : account_object Name)
    (hslot : slot_points_into db new_obj)
    (hE : ∀ e ∈ entries_of db a.id, (db.find_operation e).isSome = true) :
    ∃ db2 h2, operation_visitor db note new_obj a true
        = some (db2, some (operation_visitor_record db note new_obj).2) ∧
      db2.find_history a.id = some h2 ∧
      h2.op_list.length ≤ OPERATION_HISTORY_MAX_LENGTH := by
  obtain ⟨db2, h1, h2⟩ := operation_visitor_spec db note new_obj a true (fun _ => hslot)
    (fun _ => hE)
  refine ⟨db2, _, h1, h2, ?_⟩
  simp only [stored_entries, if_true, OPERATION_HISTORY_MAX_LENGTH]
  exact pruned_entries_length db _ _

theorem length_bound_after_insertion_witness :
    ∃ db2 h2, operation_visitor sample_db_full sample_note none ⟨0, 5⟩ true
        = some (db2, some (operation_visitor_record sample_db_full sample_note none).2) ∧
      db2.find_history 0 = some h2 ∧
      h2.op_list.length ≤ OPERATION_HISTORY_MAX_LENGTH :=
  length_bound_after_insertion sample_db_full sample_note none ⟨0, 5⟩ (by decide) (by decide)

/-- C9. With pruning enabled, inserting a record that is not older than 30 days into a
history of exactly 30 entries none of which is older than 30 days leaves exactly 30
entries: the original entries 2..30 in their order, followed by the new record. -/
theorem insertion_into_full_recent_history (db : database Name)
    (note : operation_notification Name) (new_obj : Option operation_object)
    (a : account_object Name) (h : account_history_object)
    (hslot : slot_points_into db new_obj)
    (hh : db.find_history a.id = some h)
    (hlen : h.op_list.length = 30)
    (hrecent : ∀ e ∈ h.op_list, entry_within_max_age db e = true)
    (hr : within_max_age db.head_block_time
      (operation_visitor_record db note new_obj).2.timestamp = true) :
    ∃ db2, operation_visitor db note new_obj a true
        = some (db2, some (operation_visitor_record db note new_obj).2) ∧
      db2.find_history a.id
        = some ⟨a.id, h.op_list.drop 1 ++ [(operation_visitor_record db note new_obj).2.id]⟩ ∧
      (h.op_list.drop 1 ++ [(operation_visitor_record db note new_obj).2.id]).length = 30 := by
  have hent : entries_of db a.id = h.op_list := by simp [entries_of, hh]
  have hres : ∀ e ∈ h.op_list, (db.find_operation e).isSome = true := by
    intro e he
    have := hrecent e he
    unfold entry_within_max_age at this
    cases hf : db.find_operation e with
    | none => simp [hf] at this
    | some o => rfl
  obtain ⟨db2, h1, h2⟩ := operation_visitor_spec db note new_obj a true (fun _ => hslot)
    (fun _ e he => hres e (hent ▸ he))
  refine ⟨db2, h1, ?_, ?_⟩
  · rw [h2]
    have hd : h.op_list.length - min h.op_list.length 29 = 1 := by omega
    have hfilter : (h.op_list.drop 1).filter (entry_within_max_age db) = h.op_list.drop 1 := by
      rw [List.filter_eq_self]
      intro e he
      exact hrecent e (List.mem_of_mem_drop he)
    simp only [stored_entries, hent, pruned_entries, hd, hfilter, hr, if_true]
  · simp [List.length_drop, hlen]

theorem insertion_into_full_recent_history_witness :
    ∃ db2, operation_visitor sample_db_full sample_note (some ⟨30, 0, 30, 0, 2999030, []⟩)
          ⟨0, 5⟩ true
        = some (db2, some ⟨30, 0, 30, 0, 2999030, []⟩) ∧
      db2.find_history 0 = some ⟨0, (List.range 30).drop 1 ++ [30]⟩ ∧
      ((List.range 30).drop 1 ++ [30]).length = 30 :=
  insertion_into_full_recent_history sample_db_full sample_note
    (some ⟨30, 0, 30, 0, 2999030, []⟩) ⟨0, 5⟩ ⟨0, List.range 30⟩
    (by decide) (by decide) (by decide) (by decide) (by decide)

/-- C10. With pruning enabled, inserting a record that is not older than 30 days into a
history all of whose entries are older than 30 days leaves a history of length exactly 1
whose only entry is the new record. -/
theorem insertion_into_outdated_history (db : database Name)
    (note : operation_notification Name) (new_obj : Option operation_object)
    (a : account_object Name) (h : account_history_object)
    (hslot : slot_points_into db new_obj)
    (hh : db.find_history a.id = some h)
    (hold : ∀ e ∈ h.op_list,
      (db.find_operation e).isSome = true ∧ entry_within_max_age db e = false)
    (hr : within_max_age db.head_block_time
      (operation_visitor_record db note new_obj).2.timestamp = true) :
    ∃ db2 h2, operation_visitor db note new_obj a true
        = some (db2, some (operation_visitor_record db note new_obj).2) ∧
      db2.find_history a.id = some h2 ∧
      h2.op_list = [(operation_visitor_record db note new_obj).2.id] ∧
      h2.op_list.length = 1 := by
  have hent : entries_of db a.id = h.op_list := by simp [entries_of, hh]
  obtain ⟨db2, h1, h2⟩ := operation_visitor_spec db note new_obj a true (fun _ => hslot)
    (fun _ e he => (hold e (hent ▸ he)).1)
  have hfilter : (h.op_list.drop (h.op_list.length - min h.op_list.length 29)).filter
      (entry_within_max_age db) = [] := by
    rw [List.filter_eq_nil_iff]
    intro e he
    simp [(hold e (List.mem_of_mem_drop he)).2]
  have hlist : stored_entries db (operation_visitor_record db note new_obj).2 a.id true
      = [(operation_visitor_record db note new_obj).2.id] := by
    simp [stored_entries, hent, pruned_entries, hfilter, hr]
  refine ⟨db2, _, h1, h2, hlist, ?_⟩
  simp [hlist]

theorem insertion_into_outdated_history_witness :
    ∃ db2 h2, operation_visitor sample_db_outdated sample_note none ⟨0, 5⟩ true
        = some (db2, some (operation_visitor_record sample_db_outdated sample_note none).2) ∧
      db2.find_history 0 = some h2 ∧
      h2.op_list = [(operation_visitor_record sample_db_outdated sample_note none).2.id] ∧
      h2.op_list.length = 1 :=
  insertion_into_outdated_history sample_db_outdated sample_note none ⟨0, 5⟩
    ⟨0, [0, 3, 0, 3, 0]⟩ (by decide) (by decide) (by decide) (by decide)

theorem operation_visitor_frame_spec (db : database Name)
    (note : operation_notification Name) (new_obj : Option operation_object)
    (a : account_object Name) (prune : Bool)
    (hslot : slot_points_into db new_obj)
    (hE : prune = true → ∀ e ∈ entries_of db a.id, (db.find_operation e).isSome = true) :
    ∃ db2, operation_visitor db note new_obj a prune
        = some (db2, some (operation_visitor_record db note new_obj).2) ∧
      db2.find_history a.id
        = some ⟨a.id, stored_entries (operation_visitor_record db note new_obj).1
            (operation_visitor_record db note new_obj).2 a.id prune⟩ ∧
      db2.head_block_time = db.head_block_time ∧
      db2.account_index = db.account_index ∧
      db2.operation_index = (operation_visitor_record db note new_obj).1.operation_index ∧
      db2.operation_next_id = (operation_visitor_record db note new_obj).1.operation_next_id ∧
      (∀ b, b ≠ a.id → db2.find_history b = db.find_history b) ∧
      (∀ h2 ∈ db2.account_history_index,
        h2 = ⟨a.id, stored_entries (operation_visitor_record db note new_obj).1
            (operation_visitor_record db note new_obj).2 a.id prune⟩ ∨
        h2 ∈ db.account_history_index) := by
  obtain ⟨ht, hacc, hh⟩ := operation_visitor_record_frame db note new_obj
  obtain ⟨hfind, hops⟩ := operation_visitor_record_spec db note new_obj hslot
  have hent : entries_of (operation_visitor_record db note new_obj).1 a.id = entries_of db a.id := by
    simp [entries_of, database.find_history, hh]
  obtain ⟨db2, h1, h2, h3, h4, h5, h6, h7, h8⟩ := operation_visitor_store_spec
    (operation_visitor_record db note new_obj).1 (operation_visitor_record db note new_obj).2
    a prune (fun _ => hfind)
    (fun hp e he => by
      rw [hent] at he
      have := hE hp e he
      rw [hops e this]
      exact this)
  refine ⟨db2, by simp [operation_visitor, h1], h2, h3.trans ht, h4.trans hacc, h5, h6, ?_, ?_⟩
  · intro b hb
    rw [h7 b hb]
    simp [database.find_history, hh]
  · intro x hx
    rcases h8 x hx with h | h
    · exact Or.inl h
    · exact Or.inr (hh ▸ h)

theorem mem_pruned_entries (db : database Name) (E : List operation_id_type)
    (r : operation_object) (e : operation_id_type) (he : e ∈ pruned_entries db E r) :
    e ∈ E ∨ e = r.id := by
  unfold pruned_entries at he
  rcases List.mem_append.mp he with h | h
  · exact Or.inl (List.mem_of_mem_drop (List.mem_of_mem_filter h))
  · split at h
    · exact Or.inr (by simpa using h)
    · simp at h

theorem mem_stored_entries (db : database Name) (r : operation_object)
    (a : account_id_type) (prune : Bool) (e : operation_id_type)
    (he : e ∈ stored_entries db r a prune) : e ∈ entries_of db a ∨ e = r.id := by
  unfold stored_entries at he
  split at he
  · exact mem_pruned_entries db _ r e he
  · rcases List.mem_append.mp he with h | h
    · exact Or.inl h
    · exact Or.inr (by simpa using h)

theorem within_max_age_self (t : time_point_sec) : within_max_age t t = true := by
  simp [within_max_age]

theorem stored_entries_getLast (db : database Name) (r : operation_object)
    (a : account_id_type) (prune : Bool)
    (hr : within_max_age db.head_block_time r.timestamp = true) :
    (stored_entries db r a prune).getLast? = some r.id := by
  cases prune <;> simp [stored_entries, pruned_entries, hr]

end store_theorems

/-! ## The dispatcher -/

section dispatcher_theorems

variable {Name : Type}

theorem loop_inv_record (my : account_history_plugin_impl Name) (db : database Name)
    (note : operation_notification Name) (st : database Name × Option operation_object)
    (hfresh : slot_points_into db none) (hinv : loop_inv my db note st) :
    slot_points_into st.1 st.2 ∧
    (operation_visitor_record st.1 note st.2).2 = shared_record db note ∧
    (operation_visitor_record st.1 note st.2).1.operation_index
      = db.operation_index ++ [shared_record db note] ∧
    (operation_visitor_record st.1 note st.2).1.operation_next_id
      = db.operation_next_id + 1 := by
  obtain ⟨d, slot⟩ := st
  have ht := hinv.time
  have hfresh2 : ∀ o ∈ db.operation_index, o.id ≠ db.operation_next_id := hfresh
  rcases hinv.slot with ⟨hs, ho, hn⟩ | ⟨hs, ho, hn⟩
  · simp only at hs ho hn ht
    subst hs
    refine ⟨?_, ?_, ?_, ?_⟩
    · show ∀ o ∈ d.operation_index, o.id ≠ d.operation_next_id
      rw [ho, hn]
      exact hfresh2
    · simp [operation_visitor_record, database.create_operation, shared_record, ht, hn]
    · simp [operation_visitor_record, database.create_operation, shared_record, ht, hn, ho]
    · simp [operation_visitor_record, database.create_operation, hn]
  · simp only at hs ho hn ht
    subst hs
    refine ⟨?_, rfl, ho, hn⟩
    show d.find_operation (shared_record db note).id = some (shared_record db note)
    have hnone : db.operation_index.find?
        (fun o => decide (o.id = (shared_record db note).id)) = none := by
      rw [List.find?_eq_none]
      intro o hmem
      simpa [shared_record] using hfresh2 o hmem
    simp [database.find_operation, ho, List.find?_append, hnone]

theorem visit_step (my : account_history_plugin_impl Name) (db : database Name)
    (note : operation_notification Name) (st : database Name × Option operation_object)
    (hfresh : slot_points_into db none) (hinv : loop_inv my db note st)
    (a : account_object Name) :
    ∃ d2, operation_visitor st.1 note st.2 a my._prune
        = some (d2, some (shared_record db note)) ∧
      loop_inv my db note (d2, some (shared_record db note)) ∧
      last_entry_is d2 a.id (shared_record db note).id ∧
      (∀ b, b ≠ a.id → d2.find_history b = st.1.find_history b) := by
  obtain ⟨hslot, hrec, hops, hnext⟩ := loop_inv_record my db note st hfresh hinv
  obtain ⟨hfind, hsame⟩ := operation_visitor_record_spec st.1 note st.2 hslot
  obtain ⟨ht1, _, hh1⟩ := operation_visitor_record_frame st.1 note st.2
  have hE : my._prune = true → ∀ e ∈ entries_of st.1 a.id,
      (st.1.find_operation e).isSome = true := by
    intro hp e he
    unfold entries_of at he
    cases hf : st.1.find_history a.id with
    | none => simp [hf] at he
    | some h =>
      simp only [hf] at he
      exact hinv.refs hp h (List.mem_of_find?_eq_some hf) e he
  obtain ⟨d2, h1, h2, h3, h4, h5, h6, h7, h8⟩ :=
    operation_visitor_frame_spec st.1 note st.2 a my._prune hslot hE
  rw [hrec] at h1 h2 h8 hfind
  refine ⟨d2, h1, ⟨h3.trans hinv.time, h4.trans hinv.accounts,
    Or.inr ⟨rfl, h5.trans hops, h6.trans hnext⟩, ?_⟩, ?_, h7⟩
  · intro hp x hx e he
    have hres1 : ((operation_visitor_record st.1 note st.2).1.find_operation e).isSome
        = true := by
      rcases h8 x hx with hnew | hold
      · subst hnew
        rcases mem_stored_entries _ _ _ _ e he with hin | hid
        · have hent : entries_of (operation_visitor_record st.1 note st.2).1 a.id
              = entries_of st.1 a.id := by
            simp [entries_of, database.find_history, hh1]
          rw [hent] at hin
          have := hE hp e hin
          rw [hsame e this]
          exact this
        · rw [hid, hfind]
          rfl
      · have := hinv.refs hp x hold e he
        rw [hsame e this]
        exact this
    simpa [database.find_operation, h5] using hres1
  · refine ⟨_, h2, ?_⟩
    apply stored_entries_getLast
    rw [ht1, hinv.time]
    simp [shared_record, within_max_age_self]

end dispatcher_theorems

section loop_theorems

variable {Name : Type} [LinearOrder Name]

theorem on_operation_loop_spec (my : account_history_plugin_impl Name) (db : database Name)
    (note : operation_notification Name) (hfresh : slot_points_into db none) :
    ∀ (items : List Name) (st : database Name × Option operation_object),
      loop_inv my db note st →
      ∃ st2, on_operation_loop my note items st = some st2 ∧
        loop_inv my db note st2 ∧
        (st.2 = some (shared_record db note) → st2.2 = some (shared_record db note)) ∧
        (∀ b, last_entry_is st.1 b (shared_record db note).id →
          last_entry_is st2.1 b (shared_record db note).id) ∧
        (∀ item ∈ items, qualifies my db note item →
          st2.2 = some (shared_record db note) ∧
          ∀ acct, db.find_account item = some acct →
            last_entry_is st2.1 acct.id (shared_record db note).id) := by
  intro items
  induction items with
  | nil =>
    intro st hinv
    exact ⟨st, rfl, hinv, id, fun _ h => h, fun item hmem => by simp at hmem⟩
  | cons item rest ih =>
    intro st hinv
    have hacc : st.1.find_account item = db.find_account item := by
      simp [database.find_account, hinv.accounts]
    -- the case where the impacted name is skipped
    have hskip : ¬ qualifies my db note item →
        on_operation_loop my note (item :: rest) st = on_operation_loop my note rest st →
        ∃ st2, on_operation_loop my note (item :: rest) st = some st2 ∧
          loop_inv my db note st2 ∧
          (st.2 = some (shared_record db note) → st2.2 = some (shared_record db note)) ∧
          (∀ b, last_entry_is st.1 b (shared_record db note).id →
            last_entry_is st2.1 b (shared_record db note).id) ∧
          (∀ x ∈ item :: rest, qualifies my db note x →
            st2.2 = some (shared_record db note) ∧
            ∀ acct, db.find_account x = some acct →
              last_entry_is st2.1 acct.id (shared_record db note).id) := by
      intro hnq heq
      obtain ⟨st2, h1, h2, h3, h4, h5⟩ := ih st hinv
      refine ⟨st2, heq.trans h1, h2, h3, h4, ?_⟩
      intro x hx hq
      rcases List.mem_cons.mp hx with h | h
      · subst h
        exact absurd hq hnq
      · exact h5 x h hq
    cases hrc : range_check my._tracked_accounts item with
    | none => exact absurd hrc (range_check_ne_none _ _)
    | some b =>
      cases b with
      | false =>
        apply hskip
        · intro hq
          rw [hq.1] at hrc
          cases hrc
        · simp [on_operation_loop, hrc]
      | true =>
        cases hfa : st.1.find_account item with
        | none =>
          apply hskip
          · intro hq
            have h2 := hq.2.1
            rw [← hacc, hfa] at h2
            simp at h2
          · simp [on_operation_loop, hrc, hfa]
        | some account =>
          by_cases hv : visits my note.op.type_name = true
          · obtain ⟨d2, hvis, hinv2, hlast, hother⟩ :=
              visit_step my db note st hfresh hinv account
            obtain ⟨st2, h1, h2, h3, h4, h5⟩ := ih (d2, some (shared_record db note)) hinv2
            refine ⟨st2, ?_, h2, fun _ => h3 rfl, ?_, ?_⟩
            · simp [on_operation_loop, hrc, hfa, hv, hvis, h1]
            · intro b hb
              apply h4
              by_cases hba : b = account.id
              · rw [hba]
                exact hlast
              · obtain ⟨h, hh1, hh2⟩ := hb
                exact ⟨h, (hother b hba).trans hh1, hh2⟩
            · intro x hx hq
              rcases List.mem_cons.mp hx with h | h
              · subst h
                refine ⟨h3 rfl, ?_⟩
                intro acct hacct
                rw [← hacc, hfa] at hacct
                cases hacct
                exact h4 _ hlast
              · exact h5 x h hq
          · apply hskip
            · intro hq
              exact hv hq.2.2
            · simp [on_operation_loop, hrc, hfa, hv]

/-- C4. When at least one impacted name is tracked, has an account and passes the
operation filter, one call of `on_operation` succeeds and creates exactly one operation
record, however many names qualify; the history of every qualifying account then ends
with an entry referencing that record. The slot starts empty, so the referenced id is
the fresh id of this call and not that of an object created earlier. -/
theorem shared_record_created_once (my : account_history_plugin_impl Name)
    (db : database Name) (note : operation_notification Name)
    (hfresh : slot_points_into db none)
    (hrefs : my._prune = true → references_resolve db)
    (hq : ∃ item ∈ note.op.impacted, qualifies my db note item) :
    ∃ db2, on_operation my db note = some db2 ∧
      db2.operation_index = db.operation_index ++ [shared_record db note] ∧
      db2.operation_next_id = db.operation_next_id + 1 ∧
      (∀ o ∈ db.operation_index, o.id ≠ (shared_record db note).id) ∧
      (∀ item ∈ note.op.impacted, qualifies my db note item →
        ∀ acct, db.find_account item = some acct →
          ∃ h, db2.find_history acct.id = some h ∧
            h.op_list.getLast? = some (shared_record db note).id) := by
  have hinv : loop_inv my db note (db, none) :=
    ⟨rfl, rfl, Or.inl ⟨rfl, rfl, rfl⟩, hrefs⟩
  obtain ⟨st2, h1, h2, _, _, h5⟩ :=
    on_operation_loop_spec my db note hfresh note.op.impacted (db, none) hinv
  obtain ⟨item, hmem, hqual⟩ := hq
  have hslot := (h5 item hmem hqual).1
  have hfresh2 : ∀ o ∈ db.operation_index, o.id ≠ db.operation_next_id := hfresh
  refine ⟨st2.1, by simp [on_operation, h1], ?_, ?_, hfresh2, ?_⟩
  · rcases h2.slot with ⟨hs, _, _⟩ | ⟨_, ho, _⟩
    · rw [hslot] at hs
      cases hs
    · exact ho
  · rcases h2.slot with ⟨hs, _, _⟩ | ⟨_, _, hn⟩
    · rw [hslot] at hs
      cases hs
    · exact hn
  · intro x hx hqx acct hacct
    exact (h5 x hx hqx).2 acct hacct

theorem shared_record_created_once_witness :
    ∃ db2, on_operation sample_plugin sample_db sample_note = some db2 ∧
      db2.operation_index = sample_db.operation_index ++ [⟨4, 9, 8, 1, 3000000, [1, 2]⟩] ∧
      db2.operation_next_id = 4 + 1 ∧
      (∀ o ∈ sample_db.operation_index, o.id ≠ 4) ∧
      (∀ item ∈ [5, 6, 7], qualifies sample_plugin sample_db sample_note item →
        ∀ acct, sample_db.find_account item = some acct →
          ∃ h, db2.find_history acct.id = some h ∧ h.op_list.getLast? = some 4) :=
  shared_record_created_once sample_plugin sample_db sample_note
    (by decide) (fun _ => by decide) (by decide)

end loop_theorems

/-! ## Retention -/

section retention_theorems

variable {Name : Type}

/-- C11. The retention "last 30 days or 30 items, whichever is more" does not hold of the
insertion: in `sample_db` the first account has three entries, fewer than 30, and its
first entry references a record older than 30 days; after the insertion of a new record
with pruning enabled the history is `[1, 2, 4]`, so the old entry has been removed
although no count truncation took place. -/
theorem old_entry_removed_below_count_limit :
    (entries_of sample_db 0).length < 30 ∧
    0 ∈ entries_of sample_db 0 ∧
    (sample_db.find_operation 0).isSome = true ∧
    entry_within_max_age sample_db 0 = false ∧
    (operation_visitor sample_db sample_note none ⟨0, 5⟩ true).map
        (fun st => (st.1.find_history 0, st.2))
      = some (some ⟨0, [1, 2, 4]⟩, some ⟨4, 9, 8, 1, 3000000, [1, 2]⟩) ∧
    0 ∉ [1, 2, 4] := by
  decide

theorem pruned_entries_within (db : database Name) (E : List operation_id_type)
    (r : operation_object) (hr : db.find_operation r.id = some r)
    (e : operation_id_type) (he : e ∈ pruned_entries db E r) :
    entry_within_max_age db e = true := by
  unfold pruned_entries at he
  rcases List.mem_append.mp he with h | h
  · exact (List.mem_filter.mp h).2
  · split at h
    · rename_i hw
      have : e = r.id := by simpa using h
      subst this
      simp [entry_within_max_age, hr, hw]
    · simp at h

/-- C19. With pruning enabled, whatever the history before (absent or of any length,
also shorter than 30 entries) and whatever the new record, the insertion succeeds and
afterwards no entry of the history, prior or new, is older than 30 days at the head block
time: the age removal applies to everything that survives the count truncation. -/
theorem uniform_age_bound (db : database Name) (note : operation_notification Name)
    (new_obj : Option operation_object) (a : account_object Name)
    (hslot : slot_points_into db new_obj)
    (hE : ∀ e ∈ entries_of db a.id, (db.find_operation e).isSome = true) :
    ∃ db2 h2, operation_visitor db note new_obj a true
        = some (db2, some (operation_visitor_record db note new_obj).2) ∧
      db2.find_history a.id = some h2 ∧
      db2.head_block_time = db.head_block_time ∧
      ∀ e ∈ h2.op_list, entry_within_max_age db2 e = true := by
  obtain ⟨hfind, _⟩ := operation_visitor_record_spec db note new_obj hslot
  obtain ⟨ht1, _, _⟩ := operation_visitor_record_frame db note new_obj
  obtain ⟨db2, h1, h2, h3, _, h5, _, _, _⟩ :=
    operation_visitor_frame_spec db note new_obj a true hslot (fun _ => hE)
  refine ⟨db2, _, h1, h2, h3, ?_⟩
  intro e he
  have hw := pruned_entries_within (operation_visitor_record db note new_obj).1 _ _ hfind e
    (by simpa [stored_entries] using he)
  simpa [entry_within_max_age, database.find_operation, h5, h3, ht1] using hw

theorem uniform_age_bound_witness :
    ∃ db2 h2, operation_visitor sample_db sample_note none ⟨0, 5⟩ true
        = some (db2, some (operation_visitor_record sample_db sample_note none).2) ∧
      db2.find_history 0 = some h2 ∧
      db2.head_block_time = 3000000 ∧
      ∀ e ∈ h2.op_list, entry_within_max_age db2 e = true :=
  uniform_age_bound sample_db sample_note none ⟨0, 5⟩ (by decide) (by decide)

end retention_theorems

/-! ## Malformed ranges -/

section malformed_range_theorems

variable {Name : Type} [LinearOrder Name]

theorem range_check_accepts_member (m : List (Name × Name)) (item : Name)
    (hne : m ≠ []) (hacc : range_check m item = some true) :
    ∃ p ∈ m, in_range p item := by
  have hle := lower_bound_le_length m item
  have hsome : ∀ i, i < m.length → ∃ p, m[i]? = some p :=
    fun i hi => ⟨m[i], List.getElem?_eq_getElem hi⟩
  have hlen : m.length ≠ 0 := fun h => hne (List.length_eq_zero.mp h)
  have hfin : ∀ q, q ∈ m →
      some (decide (q.1 ≤ item) && decide (item ≤ q.2)) = some true →
      ∃ p ∈ m, in_range p item := by
    intro q hq h
    simp only [Option.some.injEq, Bool.and_eq_true, decide_eq_true_eq] at h
    exact ⟨q, hq, h⟩
  rcases Nat.eq_or_lt_of_le hle with hend | hlt
  · obtain ⟨q, hq⟩ := hsome (m.length - 1) (by omega)
    have hk2 : m.length - 1 ≠ m.length := by omega
    apply hfin q (List.getElem?_mem hq)
    rw [← hacc]
    simp [range_check, hend, hlen, hq, hk2]
  · obtain ⟨p, hp⟩ := hsome _ hlt
    have hne2 : lower_bound m item ≠ m.length := by omega
    by_cases h0 : lower_bound m item = 0
    · rw [h0] at hp
      have h0l : ¬ (0 = m.length) := fun h => hlen h.symm
      apply hfin p (List.getElem?_mem hp)
      rw [← hacc]
      simp [range_check, h0, hlen, hp, h0l]
    · obtain ⟨q, hq⟩ := hsome (lower_bound m item - 1) (by omega)
      have hk2 : lower_bound m item - 1 ≠ m.length := by omega
      by_cases hkey : p.1 = item
      · apply hfin p (List.getElem?_mem hp)
        rw [← hacc]
        simp [range_check, h0, hlen, hp, hne2, hkey]
      · apply hfin q (List.getElem?_mem hq)
        rw [← hacc]
        simp [range_check, h0, hlen, hp, hne2, hkey, hq, hk2]

/-- C15. For every range map, with no assumption on overlap or on `from <= to`, the range
check never dereferences a position outside the map (it never fails); and when the map is
not empty and the check accepts a name, some configured range contains the name, so that
`from <= to` holds of it: no name is accepted on account of an inverted range. -/
theorem inverted_range_never_matched (m : List (Name × Name)) (item : Name) :
    range_check m item ≠ none ∧
    (m ≠ [] → range_check m item = some true →
      ∃ p ∈ m, in_range p item ∧ p.1 ≤ p.2 ∧ ¬ p.2 < p.1) := by
  refine ⟨range_check_ne_none m item, ?_⟩
  intro hne hacc
  obtain ⟨p, hp, h1, h2⟩ := range_check_accepts_member m item hne hacc
  exact ⟨p, hp, ⟨h1, h2⟩, le_trans h1 h2, not_lt.mpr (le_trans h1 h2)⟩

theorem inverted_range_never_matched_witness :
    range_check ([(2, 9), (5, 3)] : List (Nat × Nat)) 2 ≠ none ∧
    ∃ p ∈ ([(2, 9), (5, 3)] : List (Nat × Nat)), in_range p 2 ∧ p.1 ≤ p.2 ∧ ¬ p.2 < p.1 :=
  ⟨(inverted_range_never_matched ([(2, 9), (5, 3)] : List (Nat × Nat)) 2).1,
   (inverted_range_never_matched ([(2, 9), (5, 3)] : List (Nat × Nat)) 2).2
     (by decide) (by decide)⟩

end malformed_range_theorems

/-! ## Skipped names and filtered operations -/

section skip_theorems

variable {Name : Type} [LinearOrder Name]

theorem on_operation_loop_filtered (my : account_history_plugin_impl Name)
    (note : operation_notification Name) (hv : visits my note.op.type_name = false) :
    ∀ (items : List Name) (st : database Name × Option operation_object),
      on_operation_loop my note items st = some st := by
  intro items
  induction items with
  | nil => intro st; rfl
  | cons item rest ih =>
    intro st
    cases hrc : range_check my._tracked_accounts item with
    | none => exact absurd hrc (range_check_ne_none _ _)
    | some b =>
      cases b with
      | false => simp [on_operation_loop, hrc, ih]
      | true =>
        cases hfa : st.1.find_account item with
        | none => simp [on_operation_loop, hrc, hfa, ih]
        | some account => simp [on_operation_loop, hrc, hfa, hv, ih]

/-- C14. When filtering is configured and the type name of the operation fails the
filter, `on_operation` succeeds and returns the database unchanged, whatever the
impacted set: no operation record is created and no history is created or modified. -/
theorem filtered_out_operation_is_noop (my : account_history_plugin_impl Name)
    (db : database Name) (note : operation_notification Name)
    (hf : my._filter_content = true)
    (hfail : operation_visitor_filter my._op_list my._blacklist note.op.type_name = false) :
    on_operation my db note = some db := by
  have hv : visits my note.op.type_name = false := by simp [visits, hf, hfail]
  simp [on_operation, on_operation_loop_filtered my note hv]

theorem filtered_out_operation_is_noop_witness :
    on_operation sample_plugin_no_votes sample_db sample_note = some sample_db :=
  filtered_out_operation_is_noop sample_plugin_no_votes sample_db sample_note
    (by decide) (by decide)

/-- C18. The record created by `on_operation` is stamped with the head block time, which
is also the `now` of the age test, so it is never outdated: for every prune setting and
every qualifying impacted name, the call succeeds, the history of its account exists
afterwards, is not empty and ends with the entry referencing the record of the
notification. -/
theorem new_record_never_discarded (my : account_history_plugin_impl Name)
    (db : database Name) (note : operation_notification Name)
    (item : Name) (acct : account_object Name)
    (hfresh : slot_points_into db none)
    (hrefs : my._prune = true → references_resolve db)
    (hmem : item ∈ note.op.impacted)
    (hq : qualifies my db note item)
    (hacct : db.find_account item = some acct) :
    ∃ db2 h, on_operation my db note = some db2 ∧
      outdated_op_filter db2.head_block_time db2 (shared_record db note).id = some false ∧
      db2.find_history acct.id = some h ∧
      h.op_list ≠ [] ∧
      h.op_list.getLast? = some (shared_record db note).id := by
  have hinv : loop_inv my db note (db, none) :=
    ⟨rfl, rfl, Or.inl ⟨rfl, rfl, rfl⟩, hrefs⟩
  obtain ⟨st2, h1, h2, _, _, h5⟩ :=
    on_operation_loop_spec my db note hfresh note.op.impacted (db, none) hinv
  obtain ⟨hslot, hlast⟩ := h5 item hmem hq
  obtain ⟨h, hh1, hh2⟩ := hlast acct hacct
  have hfound := (loop_inv_record my db note st2 hfresh h2).1
  rw [hslot] at hfound
  have hfound2 : st2.1.find_operation (shared_record db note).id
      = some (shared_record db note) := hfound
  refine ⟨st2.1, h, by simp [on_operation, h1], ?_, hh1, ?_, hh2⟩
  · rw [outdated_op_filter_found st2.1 _ _ hfound2, h2.time]
    simp [shared_record, within_max_age_self]
  · intro hnil
    rw [hnil] at hh2
    simp at hh2

theorem new_record_never_discarded_witness :
    ∃ db2 h, on_operation sample_plugin sample_db sample_note = some db2 ∧
      outdated_op_filter db2.head_block_time db2 4 = some false ∧
      db2.find_history 1 = some h ∧
      h.op_list ≠ [] ∧
      h.op_list.getLast? = some 4 :=
  new_record_never_discarded sample_plugin sample_db sample_note 7 ⟨1, 7⟩
    (by decide) (fun _ => by decide) (by decide) (by decide) (by decide)

end skip_theorems

section visitor_accounts_theorems

variable {Name : Type}

theorem operation_visitor_store_accounts (d : database Name) (n : operation_object)
    (a : account_object Name) (prune : Bool) (d2 : database Name)
    (h : operation_visitor_store d n a prune = some d2) :
    d2.account_index = d.account_index := by
  have hc : ∀ f, d.create_history f = some d2 → d2.account_index = d.account_index := by
    intro f hf
    unfold database.create_history at hf
    split at hf
    · cases hf
    · cases hf; rfl
  have hm : ∀ f, d.modify_history a.id f = some d2 → d2.account_index = d.account_index := by
    intro f hf
    unfold database.modify_history at hf
    split at hf
    · cases hf
    · cases hf; rfl
  cases hfind : d.find_history a.id with
  | none =>
    simp only [operation_visitor_store, hfind] at h
    exact hc _ h
  | some x =>
    simp only [operation_visitor_store, hfind] at h
    exact hm _ h

theorem operation_visitor_accounts (d : database Name) (note : operation_notification Name)
    (slot : Option operation_object) (a : account_object Name) (prune : Bool)
    (st : database Name × Option operation_object)
    (h : operation_visitor d note slot a prune = some st) :
    st.1.account_index = d.account_index := by
  unfold operation_visitor at h
  cases hs : operation_visitor_store (operation_visitor_record d note slot).1
      (operation_visitor_record d note slot).2 a prune with
  | none => simp [hs] at h
  | some d2 =>
    simp only [hs] at h
    cases h
    rw [operation_visitor_store_accounts _ _ _ _ _ hs]
    exact (operation_visitor_record_frame d note slot).2.1

end visitor_accounts_theorems

section removed_name_theorems

variable {Name : Type} [LinearOrder Name]

theorem operation_visitor_without_impacted (d : database Name)
    (note : operation_notification Name) (item : Name) (slot : Option operation_object)
    (a : account_object Name) (prune : Bool) :
    operation_visitor d (without_impacted note item) slot a prune
      = operation_visitor d note slot a prune := by
  cases slot <;> rfl

theorem on_operation_loop_without_impacted (my : account_history_plugin_impl Name)
    (note : operation_notification Name) (item : Name) :
    ∀ (items : List Name) (st : database Name × Option operation_object),
      on_operation_loop my (without_impacted note item) items st
        = on_operation_loop my note items st := by
  intro items
  induction items with
  | nil => intro st; rfl
  | cons x rest ih =>
    intro st
    simp only [on_operation_loop, operation_visitor_without_impacted, ih]
    rfl

theorem on_operation_loop_skip (my : account_history_plugin_impl Name)
    (db : database Name) (note : operation_notification Name) (item : Name)
    (hskip : range_check my._tracked_accounts item = some false ∨ db.find_account item = none) :
    ∀ (items : List Name) (st : database Name × Option operation_object),
      st.1.account_index = db.account_index →
      on_operation_loop my note items st
        = on_operation_loop my note (items.filter (fun x => decide (x ≠ item))) st := by
  intro items
  induction items with
  | nil => intro st _; rfl
  | cons x rest ih =>
    intro st hacc
    by_cases hx : x = item
    · subst hx
      have hstep : on_operation_loop my note (x :: rest) st
          = on_operation_loop my note rest st := by
        rcases hskip with h | h
        · simp [on_operation_loop, h]
        · have h2 : st.1.find_account x = none := by
            simpa [database.find_account, hacc] using h
          cases hrc : range_check my._tracked_accounts x with
          | none => exact absurd hrc (range_check_ne_none _ _)
          | some b => cases b <;> simp [on_operation_loop, hrc, h2]
      rw [hstep, ih st hacc]
      simp
    · have hfilter : (x :: rest).filter (fun y => decide (y ≠ item))
          = x :: rest.filter (fun y => decide (y ≠ item)) := by
        simp [List.filter_cons, hx]
      rw [hfilter]
      cases hrc : range_check my._tracked_accounts x with
      | none => simp [on_operation_loop, hrc]
      | some b =>
        cases b with
        | false => simpa [on_operation_loop, hrc] using ih st hacc
        | true =>
          cases hfa : st.1.find_account x with
          | none => simpa [on_operation_loop, hrc, hfa] using ih st hacc
          | some account =>
            by_cases hv : visits my note.op.type_name = true
            · cases hvis : operation_visitor st.1 note st.2 account my._prune with
              | none => simp [on_operation_loop, hrc, hfa, hv, hvis]
              | some st1 =>
                have hacc1 : st1.1.account_index = db.account_index :=
                  (operation_visitor_accounts _ _ _ _ _ _ hvis).trans hacc
                simpa [on_operation_loop, hrc, hfa, hv, hvis] using ih st1 hacc1
            · simpa [on_operation_loop, hrc, hfa, hv] using ih st hacc

/-- C13. An impacted name that the range check rejects, or that has no account object, is
skipped silently: the result of `on_operation` (the operation records and every account
history) is the result of processing the notification with that name removed from the
impacted set, and on a well-formed store the call raises no error. -/
theorem skipped_name_has_no_effect (my : account_history_plugin_impl Name)
    (db : database Name) (note : operation_notification Name) (item : Name)
    (hskip : range_check my._tracked_accounts item = some false ∨ db.find_account item = none) :
    on_operation my db note = on_operation my db (without_impacted note item) ∧
    (slot_points_into db none → (my._prune = true → references_resolve db) →
      ∃ db2, on_operation my db note = some db2) := by
  constructor
  · unfold on_operation
    rw [on_operation_loop_without_impacted,
      on_operation_loop_skip my db note item hskip note.op.impacted (db, none) rfl]
    rfl
  · intro hfresh hrefs
    have hinv : loop_inv my db note (db, none) :=
      ⟨rfl, rfl, Or.inl ⟨rfl, rfl, rfl⟩, hrefs⟩
    obtain ⟨st2, h1, _⟩ :=
      on_operation_loop_spec my db note hfresh note.op.impacted (db, none) hinv
    exact ⟨st2.1, by simp [on_operation, h1]⟩

theorem skipped_name_has_no_effect_witness :
    (on_operation sample_plugin sample_db sample_note
      = on_operation sample_plugin sample_db (without_impacted sample_note 6)) ∧
    ∃ db2, on_operation sample_plugin sample_db sample_note = some db2 :=
  ⟨(skipped_name_has_no_effect sample_plugin sample_db sample_note 6
      (Or.inr (by decide))).1,
   (skipped_name_has_no_effect sample_plugin sample_db sample_note 6
      (Or.inr (by decide))).2 (by decide) (fun _ => by decide)⟩

end removed_name_theorems

/-! ## Configuration -/

section configuration_theorems

variable {Name : Type}

/-- C12, as the code has it. When both a whitelist option and a blacklist option are
specified, `plugin_initialize` raises no error on that account: it fails only when the
loading of the account ranges fails, and otherwise selects the whitelist mode, fills
`_op_list` from the whitelist options alone and ignores the blacklist options. -/
theorem whitelist_wins_over_blacklist
    (load_value_set : Option (List String) → List (Name × Name) → Option (List (Name × Name)))
    (options : variables_map)
    (hw : options.account_history_whitelist_ops.isSome = true ∨
      options.history_whitelist_ops.isSome = true)
    (_hb : options.account_history_blacklist_ops.isSome = true ∨
      options.history_blacklist_ops.isSome = true) :
    plugin_initialize load_value_set options
      = (load_tracked_accounts load_value_set options).map (fun tracked =>
          { _tracked_accounts := tracked,
            _filter_content := true,
            _blacklist := false,
            _op_list := insert_op_names_of options.history_whitelist_ops
              (insert_op_names_of options.account_history_whitelist_ops []),
            _prune := match options.history_disable_pruning with
              | some disable => !disable
              | none => true }) ∧
    plugin_initialize load_value_set options
      = plugin_initialize load_value_set
          { options with account_history_blacklist_ops := none,
                         history_blacklist_ops := none } := by
  have hcond : (options.account_history_whitelist_ops.isSome ||
      options.history_whitelist_ops.isSome) = true := by
    rcases hw with h | h <;> simp [h]
  constructor
  · unfold plugin_initialize
    cases load_tracked_accounts load_value_set options with
    | none => rfl
    | some tracked =>
      simp only [hcond, if_true, Option.map_some']
      cases options.history_disable_pruning <;> rfl
  · unfold plugin_initialize load_tracked_accounts
    simp only [hcond, if_true]

theorem whitelist_wins_over_blacklist_witness :
    plugin_initialize sample_load_value_set sample_options_conflict
      = (load_tracked_accounts sample_load_value_set sample_options_conflict).map
        (fun tracked =>
          { _tracked_accounts := tracked,
            _filter_content := true,
            _blacklist := false,
            _op_list := insert_op_names_of sample_options_conflict.history_whitelist_ops
              (insert_op_names_of sample_options_conflict.account_history_whitelist_ops []),
            _prune := match sample_options_conflict.history_disable_pruning with
              | some disable => !disable
              | none => true }) ∧
    plugin_initialize sample_load_value_set sample_options_conflict
      = plugin_initialize sample_load_value_set
          { sample_options_conflict with account_history_blacklist_ops := none,
                                         history_blacklist_ops := none } :=
  whitelist_wins_over_blacklist sample_load_value_set sample_options_conflict
    (Or.inl (by decide)) (Or.inl (by decide))

/-- C12, as stated, fails: with the whitelist `vote_operation, comment_operation` and the
blacklist `transfer_operation` both specified, `plugin_initialize` does not fail; it
returns the whitelist configuration and drops the blacklist. -/
theorem conflict_is_not_fatal :
    sample_options_conflict.account_history_whitelist_ops.isSome = true ∧
    sample_options_conflict.account_history_blacklist_ops.isSome = true ∧
    plugin_initialize sample_load_value_set sample_options_conflict
      = some { _tracked_accounts := [],
               _filter_content := true,
               _blacklist := false,
               _op_list := ["steem::protocol::vote_operation",
                            "steem::protocol::comment_operation"],
               _prune := true } := by
  decide

end configuration_theorems

/-! ## Inverted ranges -/

section inverted_range_theorems

variable {Name : Type} [LinearOrder Name]

theorem sorted_keys_unique (m : List (Name × Name))
    (hsorted : m.Pairwise (fun p q => p.1 < q.1)) (p q : Name × Name)
    (hp : p ∈ m) (hq : q ∈ m) (hkey : p.1 = q.1) : p = q := by
  obtain ⟨i, hi⟩ := List.mem_iff_getElem?.mp hp
  obtain ⟨j, hj⟩ := List.mem_iff_getElem?.mp hq
  rcases Nat.lt_trichotomy i j with h | h | h
  · exact absurd hkey (ne_of_lt (sorted_keys_getElem m hsorted i j p q h hi hj))
  · subst h
    rw [hi] at hj
    cases hj
    rfl
  · exact absurd hkey.symm (ne_of_lt (sorted_keys_getElem m hsorted j i q p h hj hi))

theorem range_check_eq_candidate (m : List (Name × Name)) (item : Name)
    (hne : m ≠ [])
    (hsorted : m.Pairwise (fun p q => p.1 < q.1)) :
    range_check m item
      = some (decide (∃ p ∈ m, in_range p item ∧ ∀ q ∈ m, q.1 ≤ item → q.1 ≤ p.1)) := by
  have hlen : 0 < m.length := List.length_pos.mpr hne
  have hprev : ∀ k q, lower_bound m item = k + 1 → m[k]? = some q →
      (∀ p, m[k + 1]? = some p → p.1 ≠ item) →
      range_check m item
        = some (decide (∃ p ∈ m, in_range p item ∧ ∀ q ∈ m, q.1 ≤ item → q.1 ≤ p.1)) := by
    intro k q hk hq hmiss
    rw [range_check_prev m item k q hk hq hmiss]
    have hql : q.1 < item := lower_bound_before m item k q (by omega) hq
    have hbefore : ∀ j p, m[j]? = some p → p.1 ≤ item → j ≤ k := by
      intro j p hj hp1
      by_contra hcon
      exact no_hit_after m item hsorted (by rw [hk]; exact hmiss) j p (by omega) hj hp1
    have hiff : (∃ p ∈ m, in_range p item ∧ ∀ q ∈ m, q.1 ≤ item → q.1 ≤ p.1) ↔ item ≤ q.2 := by
      constructor
      · rintro ⟨p, hpm, ⟨hp1, hp2⟩, hgreat⟩
        obtain ⟨j, hj⟩ := List.mem_iff_getElem?.mp hpm
        have hjk := hbefore j p hj hp1
        rcases Nat.eq_or_lt_of_le hjk with h | h
        · subst h
          rw [hq] at hj
          cases hj
          exact hp2
        · have h1 := sorted_keys_getElem m hsorted j k p q h hj hq
          have h2 := hgreat q (List.getElem?_mem hq) (le_of_lt hql)
          exact absurd h2 (not_le.mpr h1)
      · intro h
        refine ⟨q, List.getElem?_mem hq, ⟨le_of_lt hql, h⟩, ?_⟩
        intro q2 hq2 hle2
        obtain ⟨j, hj⟩ := List.mem_iff_getElem?.mp hq2
        have hjk := hbefore j q2 hj hle2
        rcases Nat.eq_or_lt_of_le hjk with h3 | h3
        · subst h3
          rw [hq] at hj
          cases hj
          exact le_refl _
        · exact le_of_lt (sorted_keys_getElem m hsorted j k q2 q h3 hj hq)
    simp only [hiff]
  cases hcur : m[lower_bound m item]? with
  | none =>
    have hge : m.length ≤ lower_bound m item := List.getElem?_eq_none_iff.mp hcur
    have hle2 := lower_bound_le_length m item
    obtain ⟨k, hk⟩ : ∃ k, lower_bound m item = k + 1 := ⟨lower_bound m item - 1, by omega⟩
    have hkl : k < m.length := by omega
    refine hprev k m[k] hk (List.getElem?_eq_getElem hkl) ?_
    intro p hp
    rw [← hk, hcur] at hp
    cases hp
  | some p =>
    have hpm : p ∈ m := List.getElem?_mem hcur
    by_cases hkey : p.1 = item
    · rw [range_check_hit m item p hcur hkey]
      have hiff : (∃ p ∈ m, in_range p item ∧ ∀ q ∈ m, q.1 ≤ item → q.1 ≤ p.1) ↔ item ≤ p.2 := by
        constructor
        · rintro ⟨p2, hpm2, ⟨hp1, hp2⟩, hgreat⟩
          have h1 := hgreat p hpm (le_of_eq hkey)
          have h2 : p.1 = p2.1 := le_antisymm h1 (hkey ▸ hp1)
          rw [sorted_keys_unique m hsorted p p2 hpm hpm2 h2]
          exact hp2
        · intro h
          exact ⟨p, hpm, ⟨le_of_eq hkey, h⟩, fun q _ hq => hkey ▸ hq⟩
      simp only [hiff]
    · cases hlb : lower_bound m item with
      | zero =>
        rw [hlb] at hcur
        rw [range_check_first m item p hlb hcur hkey]
        have h2 : ¬ ∃ p ∈ m, in_range p item ∧ ∀ q ∈ m, q.1 ≤ item → q.1 ≤ p.1 := by
          rintro ⟨p2, hpm2, ⟨hp1, _⟩, _⟩
          obtain ⟨j, hj⟩ := List.mem_iff_getElem?.mp hpm2
          refine no_hit_after m item hsorted ?_ j p2 (by omega) hj hp1
          intro p3 hp3
          rw [hlb, hcur] at hp3
          cases hp3
          exact hkey
        rw [decide_eq_false h2]
      | succ k =>
        have hkl : k < m.length := by
          have := lower_bound_le_length m item
          omega
        refine hprev k m[k] hlb (List.getElem?_eq_getElem hkl) ?_
        intro p2 hp2
        rw [← hlb, hcur] at hp2
        cases hp2
        exact hkey

theorem accepted_iff_not_hidden (m : List (Name × Name)) (item : Name)
    (hdisj : (without_inverted m).Pairwise (fun p q => ¬ overlap p q)) :
    (∃ p ∈ m, in_range p item ∧ ∀ q ∈ m, q.1 ≤ item → q.1 ≤ p.1) ↔
      (∃ p ∈ without_inverted m, in_range p item) ∧ ¬ hidden_by_inverted m item := by
  have hmem : ∀ p, p ∈ without_inverted m ↔ p ∈ m ∧ p.1 ≤ p.2 := by
    intro p
    simp [without_inverted, List.mem_filter]
  have hsymm : Symmetric (fun p q : Name × Name => ¬ overlap p q) := by
    intro p q h hqp
    obtain ⟨x, h1, h2⟩ := hqp
    exact h ⟨x, h2, h1⟩
  have hapart : ∀ p q, p ∈ without_inverted m → q ∈ without_inverted m → p.1 < q.1 →
      ¬ (q.1 ≤ p.2) := by
    intro p q hp hq hlt hle
    have hne : p ≠ q := fun h => absurd (h ▸ hlt) (lt_irrefl _)
    exact hdisj.forall hsymm hp hq hne
      ⟨q.1, ⟨le_of_lt hlt, hle⟩, ⟨le_refl _, ((hmem q).mp hq).2⟩⟩
  constructor
  · rintro ⟨p, hpm, ⟨hp1, hp2⟩, hgreat⟩
    have hpv : p ∈ without_inverted m := (hmem p).mpr ⟨hpm, le_trans hp1 hp2⟩
    refine ⟨⟨p, hpv, hp1, hp2⟩, ?_⟩
    rintro ⟨q, hqm, _, hq1, p2, hp2m, ⟨h21, h22⟩, hlt⟩
    have hqp := hgreat q hqm hq1
    have hp2v : p2 ∈ without_inverted m := (hmem p2).mpr ⟨hp2m, le_trans h21 h22⟩
    exact hapart p2 p hp2v hpv (lt_of_lt_of_le hlt hqp) (le_trans hp1 h22)
  · rintro ⟨⟨p, hpv, hp1, hp2⟩, hnot⟩
    have hpm := ((hmem p).mp hpv).1
    refine ⟨p, hpm, ⟨hp1, hp2⟩, ?_⟩
    intro q hqm hq1
    by_contra hcon
    have hlt : p.1 < q.1 := not_le.mp hcon
    by_cases hinv : q.1 ≤ q.2
    · exact hapart p q hpv ((hmem q).mpr ⟨hqm, hinv⟩) hlt (le_trans hq1 hp2)
    · exact hnot ⟨q, hqm, not_le.mp hinv, hq1, p, hpm, ⟨hp1, hp2⟩, hlt⟩

/-- C16, as the code has it. For a range map (keys strictly increasing) with at least one
valid range, whose valid ranges are pairwise non-overlapping, the range check gives the
answer it gives on the map with the inverted ranges removed, unless an inverted range
hides the name: it starts at or below the name and above the start of the valid range
containing the name. In that case the check rejects the name although the map without the
inverted ranges accepts it. An inverted range never makes the check accept a name. -/
theorem inverted_range_hides_or_is_ignored (m : List (Name × Name)) (item : Name)
    (hsorted : m.Pairwise (fun p q => p.1 < q.1))
    (hvalid : without_inverted m ≠ [])
    (hdisj : (without_inverted m).Pairwise (fun p q => ¬ overlap p q)) :
    (¬ hidden_by_inverted m item →
      range_check m item = range_check (without_inverted m) item) ∧
    (hidden_by_inverted m item →
      range_check m item = some false ∧
      range_check (without_inverted m) item = some true) ∧
    (range_check m item = some true →
      range_check (without_inverted m) item = some true) := by
  have hne : m ≠ [] := by
    intro h
    apply hvalid
    simp [without_inverted, h]
  have hfull := range_check_eq_candidate m item hne hsorted
  have hclean := range_check_eq_decide (without_inverted m) item hvalid
    (hsorted.sublist (List.filter_sublist m))
    (fun p hp => by
      have := (List.mem_filter.mp hp).2
      simpa using this)
    hdisj
  have hiff := accepted_iff_not_hidden m item hdisj
  refine ⟨?_, ?_, ?_⟩
  · intro hnot
    rw [hfull, hclean]
    congr 1
    apply decide_eq_decide.mpr
    rw [hiff]
    exact ⟨fun h => h.1, fun h => ⟨h, hnot⟩⟩
  · intro hhid
    have h1 : ¬ ∃ p ∈ m, in_range p item ∧ ∀ q ∈ m, q.1 ≤ item → q.1 ≤ p.1 :=
      fun h => (hiff.mp h).2 hhid
    have h2 : ∃ p ∈ without_inverted m, in_range p item := by
      obtain ⟨_, _, _, _, p, hpm, hin, _⟩ := hhid
      refine ⟨p, ?_, hin⟩
      simp only [without_inverted, List.mem_filter, decide_eq_true_eq]
      exact ⟨hpm, le_trans hin.1 hin.2⟩
    rw [hfull, hclean, decide_eq_false h1, decide_eq_true h2]
    exact ⟨rfl, rfl⟩
  · intro hacc
    rw [hfull] at hacc
    have h1 := of_decide_eq_true (Option.some.inj hacc)
    rw [hclean, decide_eq_true (hiff.mp h1).1]

theorem inverted_range_hides_or_is_ignored_witness :
    (¬ hidden_by_inverted ([(2, 10), (5, 3)] : List (Nat × Nat)) 4 →
      range_check ([(2, 10), (5, 3)] : List (Nat × Nat)) 4
        = range_check (without_inverted ([(2, 10), (5, 3)] : List (Nat × Nat))) 4) ∧
    (hidden_by_inverted ([(2, 10), (5, 3)] : List (Nat × Nat)) 4 →
      range_check ([(2, 10), (5, 3)] : List (Nat × Nat)) 4 = some false ∧
      range_check (without_inverted ([(2, 10), (5, 3)] : List (Nat × Nat))) 4 = some true) ∧
    (range_check ([(2, 10), (5, 3)] : List (Nat × Nat)) 4 = some true →
      range_check (without_inverted ([(2, 10), (5, 3)] : List (Nat × Nat))) 4 = some true) :=
  inverted_range_hides_or_is_ignored ([(2, 10), (5, 3)] : List (Nat × Nat)) 4
    (by decide) (by decide)
    (by
      rw [show without_inverted ([(2, 10), (5, 3)] : List (Nat × Nat)) = [(2, 10)] from by
        decide]
      exact List.pairwise_singleton _ _)

/-- C16, as stated, fails: the map holds the valid range `[2, 10]` and the inverted range
`[5, 3]`; the name 7 is rejected on it and accepted once the inverted range is removed. -/
theorem inverted_range_changes_answer :
    ([(2, 10), (5, 3)] : List (Nat × Nat)).Pairwise (fun p q => p.1 < q.1) ∧
    without_inverted ([(2, 10), (5, 3)] : List (Nat × Nat)) = [(2, 10)] ∧
    range_check ([(2, 10), (5, 3)] : List (Nat × Nat)) 7 = some false ∧
    range_check (without_inverted ([(2, 10), (5, 3)] : List (Nat × Nat))) 7 = some true := by
  decide

end inverted_range_theorems

/-! ## One visit of the dispatcher, exactly -/

section exact_visit_theorems

variable {Name : Type}

theorem stored_list_congr (d1 d : database Name) (E : List operation_id_type)
    (r : operation_object) (prune : Bool)
    (hops : d1.operation_index = d.operation_index)
    (ht : d1.head_block_time = d.head_block_time) :
    stored_list d1 E r prune = stored_list d E r prune := by
  have hfun : entry_within_max_age d1 = entry_within_max_age d := by
    funext e
    simp [entry_within_max_age, database.find_operation, hops, ht]
  simp [stored_list, pruned_entries, hfun, ht]

theorem stored_list_shape (db : database Name) (E : List operation_id_type)
    (r : operation_object) (prune : Bool)
    (hr : within_max_age db.head_block_time r.timestamp = true) :
    ∃ S, S.Sublist E ∧ stored_list db E r prune = S ++ [r.id] := by
  cases prune with
  | false => exact ⟨E, List.Sublist.refl E, by simp [stored_list]⟩
  | true =>
    refine ⟨(E.drop (E.length - min E.length 29)).filter (entry_within_max_age db),
      (List.filter_sublist _).trans (List.drop_sublist _ _), ?_⟩
    simp [stored_list, pruned_entries, hr]

theorem visit_step_exact (my : account_history_plugin_impl Name) (db : database Name)
    (note : operation_notification Name) (st : database Name × Option operation_object)
    (hfresh : slot_points_into db none) (hinv : loop_inv my db note st)
    (a : account_object Name) :
    ∃ d2, operation_visitor st.1 note st.2 a my._prune
        = some (d2, some (shared_record db note)) ∧
      loop_inv my db note (d2, some (shared_record db note)) ∧
      d2.operation_index = db.operation_index ++ [shared_record db note] ∧
      d2.find_operation (shared_record db note).id = some (shared_record db note) ∧
      d2.find_history a.id
        = some ⟨a.id, stored_list (with_record db note) (entries_of st.1 a.id)
            (shared_record db note) my._prune⟩ ∧
      (∀ b, b ≠ a.id → d2.find_history b = st.1.find_history b) ∧
      (∀ h2 ∈ d2.account_history_index,
        h2 = ⟨a.id, stored_list (with_record db note) (entries_of st.1 a.id)
            (shared_record db note) my._prune⟩ ∨
        h2 ∈ st.1.account_history_index) := by
  obtain ⟨d2, hvis, hinv2, _, hother⟩ := visit_step my db note st hfresh hinv a
  obtain ⟨hslot, hrec, hops, _⟩ := loop_inv_record my db note st hfresh hinv
  obtain ⟨ht1, _, hh1⟩ := operation_visitor_record_frame st.1 note st.2
  have hE : my._prune = true → ∀ e ∈ entries_of st.1 a.id,
      (st.1.find_operation e).isSome = true := by
    intro hp e he
    unfold entries_of at he
    cases hf : st.1.find_history a.id with
    | none => simp [hf] at he
    | some h =>
      simp only [hf] at he
      exact hinv.refs hp h (List.mem_of_find?_eq_some hf) e he
  obtain ⟨d3, h1, h2, _, _, _, _, _, h8⟩ :=
    operation_visitor_frame_spec st.1 note st.2 a my._prune hslot hE
  have hd : d3 = d2 := by
    rw [h1] at hvis
    exact congrArg Prod.fst (Option.some.inj hvis)
  subst hd
  have hent : entries_of (operation_visitor_record st.1 note st.2).1 a.id
      = entries_of st.1 a.id := by
    simp [entries_of, database.find_history, hh1]
  have hlist : stored_entries (operation_visitor_record st.1 note st.2).1
      (operation_visitor_record st.1 note st.2).2 a.id my._prune
      = stored_list (with_record db note) (entries_of st.1 a.id)
          (shared_record db note) my._prune := by
    have h0 : stored_entries (operation_visitor_record st.1 note st.2).1
        (operation_visitor_record st.1 note st.2).2 a.id my._prune
        = stored_list (operation_visitor_record st.1 note st.2).1
            (entries_of (operation_visitor_record st.1 note st.2).1 a.id)
            (operation_visitor_record st.1 note st.2).2 my._prune := rfl
    rw [h0, hent, hrec]
    exact stored_list_congr _ _ _ _ _ hops (ht1.trans hinv.time)
  rw [hlist] at h2 h8
  have hops2 : d3.operation_index = db.operation_index ++ [shared_record db note] := by
    rcases hinv2.slot with ⟨hs, _, _⟩ | ⟨_, ho, _⟩
    · cases hs
    · exact ho
  have hfound := (loop_inv_record my db note (d3, some (shared_record db note)) hfresh hinv2).1
  exact ⟨d3, hvis, hinv2, hops2, hfound, h2, hother, h8⟩

end exact_visit_theorems

/-! ## Order of the impacted names -/

section order_theorems

variable {Name : Type} [LinearOrder Name]

theorem find_account_spec (db : database Name) (item : Name) (acct : account_object Name)
    (h : db.find_account item = some acct) : acct ∈ db.account_index ∧ acct.name = item := by
  unfold database.find_account at h
  exact ⟨List.mem_of_find?_eq_some h, by simpa using List.find?_some h⟩

theorem distinct_names_distinct_ids (db : database Name) (hids : unique_account_ids db)
    (x y : Name) (a b : account_object Name) (hxy : x ≠ y)
    (ha : db.find_account x = some a) (hb : db.find_account y = some b) : b.id ≠ a.id := by
  obtain ⟨ham, han⟩ := find_account_spec db x a ha
  obtain ⟨hbm, hbn⟩ := find_account_spec db y b hb
  intro hid
  have := hids b hbm a ham hid
  subst this
  exact hxy (han.symm.trans hbn)

theorem on_operation_loop_exact (my : account_history_plugin_impl Name) (db : database Name)
    (note : operation_notification Name) (hfresh : slot_points_into db none)
    (hids : unique_account_ids db) :
    ∀ (items : List Name) (st : database Name × Option operation_object),
      loop_inv my db note st → items.Nodup →
      (∀ item ∈ items, ∀ acct, db.find_account item = some acct →
        st.1.find_history acct.id = db.find_history acct.id) →
      ∃ st2, on_operation_loop my note items st = some st2 ∧
        loop_inv my db note st2 ∧
        (∀ b, visited my db note items b →
          st2.1.find_history b
            = some ⟨b, stored_list (with_record db note) (entries_of db b)
                (shared_record db note) my._prune⟩) ∧
        (∀ b, ¬ visited my db note items b → st2.1.find_history b = st.1.find_history b) ∧
        ((∃ b, visited my db note items b) → st2.2 = some (shared_record db note)) ∧
        ((¬ ∃ b, visited my db note items b) → st2.2 = st.2) := by
  intro items
  induction items with
  | nil =>
    intro st hinv _ _
    refine ⟨st, rfl, hinv, ?_, fun _ _ => rfl, ?_, fun _ => rfl⟩
    · rintro b ⟨item, hmem, _⟩
      simp at hmem
    · rintro ⟨b, item, hmem, _⟩
      simp at hmem
  | cons x rest ih =>
    intro st hinv hnodup horig
    have hxrest : x ∉ rest := (List.nodup_cons.mp hnodup).1
    have hnodup2 : rest.Nodup := (List.nodup_cons.mp hnodup).2
    have hacc : st.1.find_account x = db.find_account x := by
      simp [database.find_account, hinv.accounts]
    -- the impacted name is skipped
    have hskip : ¬ qualifies my db note x →
        on_operation_loop my note (x :: rest) st = on_operation_loop my note rest st →
        ∃ st2, on_operation_loop my note (x :: rest) st = some st2 ∧
          loop_inv my db note st2 ∧
          (∀ b, visited my db note (x :: rest) b →
            st2.1.find_history b
              = some ⟨b, stored_list (with_record db note) (entries_of db b)
                  (shared_record db note) my._prune⟩) ∧
          (∀ b, ¬ visited my db note (x :: rest) b →
            st2.1.find_history b = st.1.find_history b) ∧
          ((∃ b, visited my db note (x :: rest) b) → st2.2 = some (shared_record db note)) ∧
          ((¬ ∃ b, visited my db note (x :: rest) b) → st2.2 = st.2) := by
      intro hnq heq
      have hvis : ∀ b, visited my db note (x :: rest) b ↔ visited my db note rest b := by
        intro b
        constructor
        · rintro ⟨item, hmem, hq, hrest⟩
          rcases List.mem_cons.mp hmem with h | h
          · exact absurd (h ▸ hq) hnq
          · exact ⟨item, h, hq, hrest⟩
        · rintro ⟨item, hmem, hq, hrest⟩
          exact ⟨item, List.mem_cons_of_mem _ hmem, hq, hrest⟩
      obtain ⟨st2, h1, h2, h3, h4, h5, h6⟩ := ih st hinv hnodup2
        (fun item hmem => horig item (List.mem_cons_of_mem _ hmem))
      refine ⟨st2, heq.trans h1, h2, fun b hb => h3 b ((hvis b).mp hb),
        fun b hb => h4 b (fun h => hb ((hvis b).mpr h)), ?_, ?_⟩
      · rintro ⟨b, hb⟩
        exact h5 ⟨b, (hvis b).mp hb⟩
      · intro hno
        exact h6 (fun ⟨b, hb⟩ => hno ⟨b, (hvis b).mpr hb⟩)
    cases hrc : range_check my._tracked_accounts x with
    | none => exact absurd hrc (range_check_ne_none _ _)
    | some c =>
      cases c with
      | false =>
        apply hskip
        · intro hq
          rw [hq.1] at hrc
          cases hrc
        · simp [on_operation_loop, hrc]
      | true =>
        cases hfa : st.1.find_account x with
        | none =>
          apply hskip
          · intro hq
            have h2 := hq.2.1
            rw [← hacc, hfa] at h2
            simp at h2
          · simp [on_operation_loop, hrc, hfa]
        | some account =>
          by_cases hv : visits my note.op.type_name = true
          · have hfa2 : db.find_account x = some account := hacc ▸ hfa
            have hqx : qualifies my db note x := ⟨hrc, by simp [hfa2], hv⟩
            obtain ⟨d2, hvis, hinv2, _, _, hnew, hother, _⟩ :=
              visit_step_exact my db note st hfresh hinv account
            have hentries : entries_of st.1 account.id = entries_of db account.id := by
              simp [entries_of, horig x (List.mem_cons_self _ _) account hfa2]
            rw [hentries] at hnew
            have hrest_ne : ∀ item ∈ rest, ∀ acct, db.find_account item = some acct →
                acct.id ≠ account.id := by
              intro item hmem acct hacct
              have hne : x ≠ item := fun h => hxrest (h ▸ hmem)
              exact distinct_names_distinct_ids db hids x item account acct hne hfa2 hacct
            have hnot_rest : ¬ visited my db note rest account.id := by
              rintro ⟨item, hmem, _, acct, hacct, hid⟩
              exact hrest_ne item hmem acct hacct hid
            obtain ⟨st2, h1, h2, h3, h4, h5, h6⟩ :=
              ih (d2, some (shared_record db note)) hinv2 hnodup2
                (fun item hmem acct hacct => by
                  show d2.find_history acct.id = db.find_history acct.id
                  rw [hother acct.id (hrest_ne item hmem acct hacct)]
                  exact horig item (List.mem_cons_of_mem _ hmem) acct hacct)
            have hslot2 : st2.2 = some (shared_record db note) := by
              by_cases hex : ∃ b, visited my db note rest b
              · exact h5 hex
              · exact h6 hex
            refine ⟨st2, ?_, h2, ?_, ?_, fun _ => hslot2, ?_⟩
            · simp [on_operation_loop, hrc, hfa, hv, hvis, h1]
            · rintro b ⟨item, hmem, hq, acct, hacct, hid⟩
              rcases List.mem_cons.mp hmem with h | h
              · subst h
                rw [hfa2] at hacct
                cases hacct
                subst hid
                rw [h4 _ hnot_rest]
                exact hnew
              · exact h3 b ⟨item, h, hq, acct, hacct, hid⟩
            · intro b hb
              have hb2 : ¬ visited my db note rest b := by
                rintro ⟨item, hmem, hrest⟩
                exact hb ⟨item, List.mem_cons_of_mem _ hmem, hrest⟩
              have hba : b ≠ account.id := by
                intro h
                exact hb ⟨x, List.mem_cons_self _ _, hqx, account, hfa2, h.symm⟩
              rw [h4 b hb2]
              exact hother b hba
            · intro hno
              exact absurd ⟨account.id, x, List.mem_cons_self _ _, hqx, account, hfa2, rfl⟩ hno
          · apply hskip
            · intro hq
              exact hv hq.2.2
            · simp [on_operation_loop, hrc, hfa, hv]

theorem on_operation_loop_with_impacted (my : account_history_plugin_impl Name)
    (note : operation_notification Name) (l : List Name) :
    ∀ (items : List Name) (st : database Name × Option operation_object),
      on_operation_loop my (with_impacted note l) items st
        = on_operation_loop my note items st := by
  have hvisit : ∀ (d : database Name) (slot : Option operation_object)
      (a : account_object Name) (prune : Bool),
      operation_visitor d (with_impacted note l) slot a prune
        = operation_visitor d note slot a prune := by
    intro d slot a prune
    cases slot <;> rfl
  intro items
  induction items with
  | nil => intro st; rfl
  | cons x rest ih =>
    intro st
    simp only [on_operation_loop, hvisit, ih]
    rfl

/-- C20. For two orderings of the same duplicate-free impacted set, `on_operation`
succeeds on both, creates the same operation record (the operation indexes and their next
ids agree) and leaves the same history, entry for entry, for every account. The store is
well formed: the next operation id is unused, the ids of the accounts are unique and,
with pruning, the references resolve. -/
theorem order_of_impacted_is_irrelevant (my : account_history_plugin_impl Name)
    (db : database Name) (note : operation_notification Name) (l2 : List Name)
    (hfresh : slot_points_into db none)
    (hrefs : my._prune = true → references_resolve db)
    (hids : unique_account_ids db)
    (hnodup : note.op.impacted.Nodup)
    (hperm : note.op.impacted.Perm l2) :
    ∃ d1 d2, on_operation my db note = some d1 ∧
      on_operation my db (with_impacted note l2) = some d2 ∧
      d1.operation_index = d2.operation_index ∧
      d1.operation_next_id = d2.operation_next_id ∧
      ∀ b, d1.find_history b = d2.find_history b := by
  have hinv : loop_inv my db note (db, none) :=
    ⟨rfl, rfl, Or.inl ⟨rfl, rfl, rfl⟩, hrefs⟩
  obtain ⟨s1, a1, a2, a3, a4, a5, a6⟩ :=
    on_operation_loop_exact my db note hfresh hids note.op.impacted (db, none) hinv hnodup
      (fun _ _ _ _ => rfl)
  obtain ⟨s2, b1, b2, b3, b4, b5, b6⟩ :=
    on_operation_loop_exact my db note hfresh hids l2 (db, none) hinv
      (hperm.nodup_iff.mp hnodup) (fun _ _ _ _ => rfl)
  have hvis : ∀ b, visited my db note note.op.impacted b ↔ visited my db note l2 b := by
    intro b
    constructor
    · rintro ⟨item, hmem, hrest⟩
      exact ⟨item, hperm.mem_iff.mp hmem, hrest⟩
    · rintro ⟨item, hmem, hrest⟩
      exact ⟨item, hperm.mem_iff.mpr hmem, hrest⟩
  have hslot : s1.2 = s2.2 := by
    by_cases hex : ∃ b, visited my db note note.op.impacted b
    · obtain ⟨b, hb⟩ := hex
      rw [a5 ⟨b, hb⟩, b5 ⟨b, (hvis b).mp hb⟩]
    · have hex2 : ¬ ∃ b, visited my db note l2 b :=
        fun ⟨b, hb⟩ => hex ⟨b, (hvis b).mpr hb⟩
      rw [a6 hex, b6 hex2]
  have hops : s1.1.operation_index = s2.1.operation_index ∧
      s1.1.operation_next_id = s2.1.operation_next_id := by
    rcases a2.slot with ⟨hs1, ho1, hn1⟩ | ⟨hs1, ho1, hn1⟩ <;>
    rcases b2.slot with ⟨hs2, ho2, hn2⟩ | ⟨hs2, ho2, hn2⟩
    · exact ⟨ho1.trans ho2.symm, hn1.trans hn2.symm⟩
    · rw [hslot, hs2] at hs1
      cases hs1
    · rw [hslot, hs2] at hs1
      cases hs1
    · exact ⟨ho1.trans ho2.symm, hn1.trans hn2.symm⟩
  refine ⟨s1.1, s2.1, by simp [on_operation, a1], ?_, hops.1, hops.2, ?_⟩
  · have : on_operation_loop my (with_impacted note l2) l2 (db, none) = some s2 := by
      rw [on_operation_loop_with_impacted]
      exact b1
    simp only [on_operation]
    have himp : (with_impacted note l2).op.impacted = l2 := rfl
    rw [himp, this]
  · intro b
    by_cases hb : visited my db note note.op.impacted b
    · rw [a3 b hb, b3 b ((hvis b).mp hb)]
    · rw [a4 b hb, b4 b (fun h => hb ((hvis b).mpr h))]

theorem order_of_impacted_is_irrelevant_witness :
    ∃ d1 d2, on_operation sample_plugin sample_db sample_note = some d1 ∧
      on_operation sample_plugin sample_db (with_impacted sample_note [7, 6, 5]) = some d2 ∧
      d1.operation_index = d2.operation_index ∧
      d1.operation_next_id = d2.operation_next_id ∧
      ∀ b, d1.find_history b = d2.find_history b :=
  order_of_impacted_is_irrelevant sample_plugin sample_db sample_note [7, 6, 5]
    (by decide) (fun _ => by decide) (by decide) (by decide) (by decide)

end order_theorems

/-! ## Order by age -/

section age_order_theorems

variable {Name : Type}

theorem not_after_head_mono (d d2 : database Name) (e : operation_id_type)
    (hmono : ∀ e o, d.find_operation e = some o → d2.find_operation e = some o)
    (ht : d2.head_block_time = d.head_block_time)
    (h : not_after_head d e) : not_after_head d2 e := by
  unfold not_after_head at h ⊢
  cases hf : d.find_operation e with
  | none => simp [hf] at h
  | some o =>
    simp only [hf] at h
    simp only [hmono e o hf, ht]
    exact h

theorem not_newer_mono (d d2 : database Name) (e1 e2 : operation_id_type)
    (hmono : ∀ e o, d.find_operation e = some o → d2.find_operation e = some o)
    (h : not_newer d e1 e2) : not_newer d2 e1 e2 := by
  unfold not_newer at h ⊢
  cases hf1 : d.find_operation e1 with
  | none => simp [hf1] at h
  | some o1 =>
    cases hf2 : d.find_operation e2 with
    | none => simp [hf1, hf2] at h
    | some o2 =>
      simp only [hf1, hf2] at h
      simp only [hmono e1 o1 hf1, hmono e2 o2 hf2]
      exact h

theorem not_after_head_resolves (d : database Name) (e : operation_id_type)
    (h : not_after_head d e) : (d.find_operation e).isSome = true := by
  unfold not_after_head at h
  cases hf : d.find_operation e with
  | none => simp [hf] at h
  | some o => rfl

theorem visit_step_sorted (my : account_history_plugin_impl Name) (db : database Name)
    (note : operation_notification Name) (st : database Name × Option operation_object)
    (hfresh : slot_points_into db none) (hinv : loop_inv my db note st)
    (hJ : histories_age_sorted st.1) (a : account_object Name) :
    ∃ d2, operation_visitor st.1 note st.2 a my._prune
        = some (d2, some (shared_record db note)) ∧
      loop_inv my db note (d2, some (shared_record db note)) ∧
      histories_age_sorted d2 ∧
      (∃ S, S.Sublist (entries_of st.1 a.id) ∧
        d2.find_history a.id = some ⟨a.id, S ++ [(shared_record db note).id]⟩) ∧
      (∀ b, b ≠ a.id → d2.find_history b = st.1.find_history b) := by
  obtain ⟨d2, hvis, hinv2, hops2, hfound, hnew, hother, hmem⟩ :=
    visit_step_exact my db note st hfresh hinv a
  have ht2 : d2.head_block_time = st.1.head_block_time := hinv2.time.trans hinv.time.symm
  have hmono : ∀ e o, st.1.find_operation e = some o → d2.find_operation e = some o := by
    intro e o he
    unfold database.find_operation at he ⊢
    rcases hinv.slot with ⟨_, ho, _⟩ | ⟨_, ho, _⟩
    · rw [ho] at he
      rw [hops2, List.find?_append, he]
      rfl
    · rw [hops2, ← ho]
      exact he
  obtain ⟨S, hS, hshape⟩ := stored_list_shape (with_record db note) (entries_of st.1 a.id)
    (shared_record db note) my._prune (by simp [with_record, shared_record, within_max_age_self])
  rw [hshape] at hnew hmem
  have hE : ∀ e ∈ entries_of st.1 a.id, not_after_head st.1 e := by
    intro e he
    unfold entries_of at he
    cases hf : st.1.find_history a.id with
    | none => simp [hf] at he
    | some h =>
      simp only [hf] at he
      exact (hJ h (List.mem_of_find?_eq_some hf)).2 e he
  have hEsorted : age_sorted st.1 (entries_of st.1 a.id) := by
    unfold entries_of
    cases hf : st.1.find_history a.id with
    | none => exact List.Pairwise.nil
    | some h => exact (hJ h (List.mem_of_find?_eq_some hf)).1
  have hrec_head : not_after_head d2 (shared_record db note).id := by
    unfold not_after_head
    rw [hfound, hinv2.time]
    exact le_refl _
  refine ⟨d2, hvis, hinv2, ?_, ⟨S, hS, hnew⟩, hother⟩
  intro h2 hh2
  rcases hmem h2 hh2 with hnewobj | hold
  · subst hnewobj
    constructor
    · show List.Pairwise (not_newer d2) (S ++ [(shared_record db note).id])
      rw [List.pairwise_append]
      refine ⟨?_, List.pairwise_singleton _ _, ?_⟩
      · exact (hEsorted.sublist hS).imp (fun {e1 e2} h => not_newer_mono st.1 d2 e1 e2 hmono h)
      · intro e he r hr
        have hr2 : r = (shared_record db note).id := by simpa using hr
        subst hr2
        have hb := not_after_head_mono st.1 d2 e hmono ht2 (hE e (hS.subset he))
        unfold not_after_head at hb
        unfold not_newer
        cases hf : d2.find_operation e with
        | none => simp [hf] at hb
        | some o =>
          simp only [hf] at hb
          simp only [hfound]
          rw [hinv2.time] at hb
          exact hb
    · intro e he
      rcases List.mem_append.mp he with h | h
      · exact not_after_head_mono st.1 d2 e hmono ht2 (hE e (hS.subset h))
      · have : e = (shared_record db note).id := by simpa using h
        rw [this]
        exact hrec_head
  · obtain ⟨h1, h3⟩ := hJ h2 hold
    exact ⟨h1.imp (fun {e1 e2} h => not_newer_mono st.1 d2 e1 e2 hmono h),
      fun e he => not_after_head_mono st.1 d2 e hmono ht2 (h3 e he)⟩

end age_order_theorems

section age_order_loop_theorems

variable {Name : Type} [LinearOrder Name]

theorem on_operation_loop_sorted (my : account_history_plugin_impl Name)
    (db : database Name) (note : operation_notification Name)
    (hfresh : slot_points_into db none) :
    ∀ (items : List Name) (st : database Name × Option operation_object),
      loop_inv my db note st → histories_age_sorted st.1 →
      order_kept db st.1 (shared_record db note).id →
      ∃ st2, on_operation_loop my note items st = some st2 ∧
        loop_inv my db note st2 ∧ histories_age_sorted st2.1 ∧
        order_kept db st2.1 (shared_record db note).id := by
  intro items
  induction items with
  | nil =>
    intro st hinv hJ hK
    exact ⟨st, rfl, hinv, hJ, hK⟩
  | cons x rest ih =>
    intro st hinv hJ hK
    cases hrc : range_check my._tracked_accounts x with
    | none => exact absurd hrc (range_check_ne_none _ _)
    | some c =>
      cases c with
      | false =>
        obtain ⟨st2, h1, h2⟩ := ih st hinv hJ hK
        exact ⟨st2, by simp [on_operation_loop, hrc, h1], h2⟩
      | true =>
        cases hfa : st.1.find_account x with
        | none =>
          obtain ⟨st2, h1, h2⟩ := ih st hinv hJ hK
          exact ⟨st2, by simp [on_operation_loop, hrc, hfa, h1], h2⟩
        | some account =>
          by_cases hv : visits my note.op.type_name = true
          · obtain ⟨d2, hvis, hinv2, hJ2, ⟨S, hS, hnew⟩, hother⟩ :=
              visit_step_sorted my db note st hfresh hinv hJ account
            have hK2 : order_kept db d2 (shared_record db note).id := by
              intro b
              by_cases hb : b = account.id
              · subst hb
                refine Or.inr ⟨_, hnew, ?_, by simp⟩
                have hfilter : List.filter (fun e => decide (e ≠ (shared_record db note).id))
                    (S ++ [(shared_record db note).id])
                    = List.filter (fun e => decide (e ≠ (shared_record db note).id)) S := by
                  simp [List.filter_append]
                show List.Sublist (List.filter _ (S ++ [(shared_record db note).id])) _
                rw [hfilter]
                refine (hS.filter _).trans ?_
                rcases hK account.id with hsame | ⟨h3, hf3, hsub, _⟩
                · have : entries_of st.1 account.id = entries_of db account.id := by
                    simp [entries_of, hsame]
                  rw [this]
                  exact List.filter_sublist _
                · have : entries_of st.1 account.id = h3.op_list := by
                    simp [entries_of, hf3]
                  rw [this]
                  exact hsub
              · rw [hother b hb]
                exact hK b
            obtain ⟨st2, h1, h2⟩ := ih (d2, some (shared_record db note)) hinv2 hJ2 hK2
            exact ⟨st2, by simp [on_operation_loop, hrc, hfa, hv, hvis, h1], h2⟩
          · obtain ⟨st2, h1, h2⟩ := ih st hinv hJ hK
            exact ⟨st2, by simp [on_operation_loop, hrc, hfa, hv, h1], h2⟩

/-- C17. If before a call of `on_operation` every history is ordered oldest to newest by
the timestamps of the records it references and no referenced record is stamped later
than the head block time, the call succeeds and every history is ordered oldest to newest
afterwards. The history of an account is either untouched or ends with the entry of the
new record, its other entries being entries of the prior history in their prior order. -/
theorem histories_stay_age_sorted (my : account_history_plugin_impl Name)
    (db : database Name) (note : operation_notification Name)
    (hfresh : slot_points_into db none)
    (hsorted : ∀ h ∈ db.account_history_index, age_sorted db h.op_list)
    (hbound : ∀ h ∈ db.account_history_index, ∀ e ∈ h.op_list, not_after_head db e) :
    ∃ db2, on_operation my db note = some db2 ∧
      (∀ h2 ∈ db2.account_history_index, age_sorted db2 h2.op_list) ∧
      (∀ b, db2.find_history b = db.find_history b ∨
        ∃ h2, db2.find_history b = some h2 ∧
          (h2.op_list.filter (fun e => decide (e ≠ (shared_record db note).id))).Sublist
            (entries_of db b) ∧
          h2.op_list.getLast? = some (shared_record db note).id) := by
  have hinv : loop_inv my db note (db, none) :=
    ⟨rfl, rfl, Or.inl ⟨rfl, rfl, rfl⟩,
      fun _ h hh e he => not_after_head_resolves db e (hbound h hh e he)⟩
  obtain ⟨st2, h1, _, h3, h4⟩ :=
    on_operation_loop_sorted my db note hfresh note.op.impacted (db, none) hinv
      (fun h hh => ⟨hsorted h hh, hbound h hh⟩) (fun _ => Or.inl rfl)
  exact ⟨st2.1, by simp [on_operation, h1], fun h2 hh2 => (h3 h2 hh2).1, h4⟩

theorem histories_stay_age_sorted_witness :
    ∃ db2, on_operation sample_plugin sample_db_sorted sample_note = some db2 ∧
      (∀ h2 ∈ db2.account_history_index, age_sorted db2 h2.op_list) ∧
      (∀ b, db2.find_history b = sample_db_sorted.find_history b ∨
        ∃ h2, db2.find_history b = some h2 ∧
          (h2.op_list.filter (fun e => decide (e ≠ 4))).Sublist
            (entries_of sample_db_sorted b) ∧
          h2.op_list.getLast? = some 4) :=
  histories_stay_age_sorted sample_plugin sample_db_sorted sample_note
    (by decide) (by decide) (by decide)

end age_order_loop_theorems

end steem.plugins.account_history
